import Mathlib

/-!
Verification of the RESP protocol codec (`resp.go`).

Bytes are modelled as `Nat`, byte strings as `List Nat`, Go's 64-bit `int`
as `Int` with explicit wrapping (`wrap64`) at every operation whose Go
counterpart can overflow.  Go slices that distinguish `nil` from empty are
modelled as `Option (List _)` (`none` = nil) or with an explicit nil flag.

The streaming reader is embedded twice:
* a pure byte-list parser (`readValue` and friends), the semantics of the
  reader when the buffered layer delivers bytes in order, and
* a buffered state machine (`fillBuffer`, `readValueB`, ...) that mirrors
  the `Reader` struct with its `buf`/`p`/`l`/`s` fields and chunked
  underlying reads, used to study fragmented delivery.
-/

namespace Resp

/-- Errors surfaced by the reader: protocol errors (`errProtocol`), `io.EOF`,
`io.ErrUnexpectedEOF`, the `"invalid argument"` error of `readBytes`, and a
fuel marker that never occurs for adequately fueled runs. -/
inductive RErr where
  | protocol (msg : String)
  | eof
  | unexpectedEOF
  | invalidArg
  | fuelOut
deriving DecidableEq, Repr

mutual

/-- The `Value` struct: `typ` is the type byte, `integer` the Go `int`
field, `str` the `[]byte` field (`none` = nil slice), `array` the `[]Value`
field together with `arrayNil` recording whether that slice is nil, and
`null` the null marker. -/
inductive Value where
  | mk (typ : Nat) (integer : Int) (str : Option (List Nat)) (array : ValueList)
      (arrayNil : Bool) (null : Bool)

/-- A `[]Value` slice payload. -/
inductive ValueList where
  | nil
  | cons (hd : Value) (tl : ValueList)

end

def Value.typ : Value → Nat
  | .mk t _ _ _ _ _ => t

def Value.integer : Value → Int
  | .mk _ i _ _ _ _ => i

def Value.str : Value → Option (List Nat)
  | .mk _ _ s _ _ _ => s

def Value.array : Value → ValueList
  | .mk _ _ _ a _ _ => a

def Value.arrayNil : Value → Bool
  | .mk _ _ _ _ an _ => an

def Value.null : Value → Bool
  | .mk _ _ _ _ _ nl => nl

def ValueList.length : ValueList → Nat
  | .nil => 0
  | .cons _ tl => tl.length + 1

/-- `var nullValue = Value{null: true}` (all other fields zero). -/
def nullValue : Value := .mk 0 0 none .nil true true

/-- Wrap an integer to Go's 64-bit signed `int` range. -/
def wrap64 (x : Int) : Int := (x + 2 ^ 63) % 2 ^ 64 - 2 ^ 63

/-- Decimal digits (as ASCII bytes, most significant first) of `n`; empty
for `0`. -/
def natDigits (n : Nat) : List Nat :=
  if h : n = 0 then [] else natDigits (n / 10) ++ [n % 10 + 48]
decreasing_by exact Nat.div_lt_self (Nat.pos_of_ne_zero h) (by norm_num)

/-- Canonical decimal representation of a natural number (ASCII bytes). -/
def natRepr (n : Nat) : List Nat := if n = 0 then [48] else natDigits n

/-- `strconv.FormatInt`: canonical decimal representation of an integer. -/
def intRepr (x : Int) : List Nat :=
  if x < 0 then 45 :: natRepr (-x).toNat else natRepr x.toNat

/-- A nil `[]byte` reads as the empty slice (`len(nil) = 0`). -/
def strD : Option (List Nat) → List Nat
  | none => []
  | some s => s

/-- `marshalSimpleRESP`: type byte, payload, CRLF. -/
def marshalSimpleRESP (typ : Nat) (b : List Nat) : Except String (List Nat) :=
  .ok (typ :: b ++ [13, 10])

/-- `marshalBulkRESP`: `$-1\r\n` for null, else `$<len>\r\n<data>\r\n`. -/
def marshalBulkRESP (v : Value) : Except String (List Nat) :=
  if v.null then .ok [36, 45, 49, 13, 10]
  else .ok (36 :: intRepr (strD v.str).length ++ [13, 10] ++ strD v.str ++ [13, 10])

mutual

/-- `marshalAnyRESP`: dispatch on the type byte; the zero value with the
null flag marshals as a null bulk string; otherwise unknown types error. -/
def marshalAnyRESP : Value → Except String (List Nat)
  | .mk t i s a an nl =>
    if t = 45 ∨ t = 43 then marshalSimpleRESP t (strD s)
    else if t = 58 then marshalSimpleRESP 58 (intRepr i)
    else if t = 36 then marshalBulkRESP (.mk t i s a an nl)
    else if t = 42 then
      if nl then .ok [42, 45, 49, 13, 10]
      else
        match marshalArrayItems a with
        | .error e => .error e
        | .ok body => .ok (42 :: intRepr (ValueList.length a) ++ [13, 10] ++ body)
    else if t = 0 ∧ nl = true then .ok [36, 45, 49, 13, 10]
    else .error "unknown resp type encountered"
termination_by structural v => v

/-- The element loop of `marshalArrayRESP`: concatenation of the elements'
marshaled forms, propagating the first error. -/
def marshalArrayItems : ValueList → Except String (List Nat)
  | .nil => .ok []
  | .cons hd tl =>
    match marshalAnyRESP hd with
    | .error e => .error e
    | .ok d =>
      match marshalArrayItems tl with
      | .error e => .error e
      | .ok ds => .ok (d ++ ds)
termination_by structural l => l

end

/-- `Value.MarshalRESP`. -/
def Value.MarshalRESP (v : Value) : Except String (List Nat) := marshalAnyRESP v

/-- Result of a primitive read: the value produced (`out`), the consumed
byte count `n` as the Go function reports it, the remaining input, and the
returned error (`none` = nil). -/
structure PRes (α : Type) where
  out : α
  n : Nat
  rest : List Nat
  err : Option RErr
deriving Repr

/-- Result of `readValue`: decoded value, telnet flag, consumed count as
reported, remaining input, error. -/
structure RVal where
  val : Value
  telnet : Bool
  n : Nat
  rest : List Nat
  err : Option RErr

/-- `readByte`: next byte of the stream, or `io.EOF` when exhausted. -/
def readByte : List Nat → PRes Nat
  | [] => ⟨0, 0, [], some .eof⟩
  | c :: rest => ⟨c, 1, rest, none⟩

/-- The scan loop of `readLine`: `full` is the input at entry, `lc` the
previous byte, `n` the count of bytes consumed so far.  On the first
`\n` immediately preceded by `\r` it returns all consumed bytes but the
final CRLF; reaching the end of the stream is `io.EOF` with nothing
consumed (the Go loop only commits `rd.p`/`rd.l` on success). -/
def readLineLoop (full : List Nat) (lc n : Nat) : List Nat → PRes (List Nat)
  | [] => ⟨[], 0, full, some .eof⟩
  | c :: rest =>
    if c = 10 ∧ lc = 13 then
      ⟨full.take (n + 1 - 2), n + 1, full.drop (n + 1), none⟩
    else readLineLoop full c (n + 1) rest

/-- `readLine`. -/
def readLine (input : List Nat) : PRes (List Nat) := readLineLoop input 0 0 input

/-- The digit loop of `readInt`: `length` is the Go accumulator (a native
`int`, hence `wrap64` at every step), `neg` the sign multiplier. -/
def readIntLoop (neg length : Int) (n : Nat) : List Nat → PRes Int
  | [] => ⟨0, n, [], some .eof⟩
  | c :: rest =>
    if c = 13 then
      match rest with
      | [] => ⟨0, n + 1, [], some .eof⟩
      | c2 :: rest2 =>
        if c2 = 10 then ⟨wrap64 (length * neg), n + 2, rest2, none⟩
        else ⟨0, n + 2, rest2, some (.protocol "invalid length")⟩
    else if 48 ≤ c ∧ c ≤ 57 then
      readIntLoop neg (wrap64 (length * 10 + ((c : Int) - 48))) (n + 1) rest
    else ⟨0, n + 1, rest, some (.protocol "invalid length")⟩

/-- `readInt`: optional `-` sign, then the digit loop. -/
def readInt : List Nat → PRes Int
  | [] => ⟨0, 0, [], some .eof⟩
  | c :: rest =>
    if c = 45 then
      match rest with
      | [] => ⟨0, 1, [], some .eof⟩
      | c2 :: rest2 => readIntLoop (-1) 0 1 (c2 :: rest2)
    else readIntLoop 1 0 0 (c :: rest)

/-- `readBytes`: exactly `count` bytes; a negative count is the
`"invalid argument"` error; running out of input is `io.EOF` with nothing
consumed. -/
def readBytes (count : Int) (input : List Nat) : PRes (List Nat) :=
  if count < 0 then ⟨[], 0, input, some .invalidArg⟩
  else if input.length < count.toNat then ⟨[], 0, input, some .eof⟩
  else ⟨input.take count.toNat, count.toNat, input.drop count.toNat, none⟩

/-- `readSimpleValue`. -/
def readSimpleValue (typ : Nat) (input : List Nat) : PRes Value :=
  let r := readLine input
  match r.err with
  | some e => ⟨nullValue, r.n, r.rest, some e⟩
  | none => ⟨.mk typ 0 (some r.out) .nil true false, r.n, r.rest, none⟩

/-- `readIntegerValue`: protocol errors from `readInt` become
`"invalid integer"`. -/
def readIntegerValue (input : List Nat) : PRes Value :=
  let r := readInt input
  match r.err with
  | some (.protocol _) => ⟨nullValue, r.n, r.rest, some (.protocol "invalid integer")⟩
  | some e => ⟨nullValue, r.n, r.rest, some e⟩
  | none => ⟨.mk 58 r.out none .nil true false, r.n, r.rest, none⟩

/-- `readBulkValue`: length header, negative means null, lengths above
512 MiB are rejected, then exactly `l+2` bytes whose last two must be CRLF. -/
def readBulkValue (input : List Nat) : PRes Value :=
  let r := readInt input
  match r.err with
  | some (.protocol _) => ⟨nullValue, r.n, r.rest, some (.protocol "invalid bulk length")⟩
  | some e => ⟨nullValue, r.n, r.rest, some e⟩
  | none =>
    if r.out < 0 then ⟨.mk 36 0 none .nil true true, r.n, r.rest, none⟩
    else if r.out > 512 * 1024 * 1024 then
      ⟨nullValue, r.n, r.rest, some (.protocol "invalid bulk length")⟩
    else
      let rb := readBytes (r.out + 2) r.rest
      match rb.err with
      | some e => ⟨nullValue, r.n + rb.n, rb.rest, some e⟩
      | none =>
        if rb.out.getD r.out.toNat 0 = 13 ∧ rb.out.getD (r.out.toNat + 1) 0 = 10 then
          ⟨.mk 36 0 (some (rb.out.take r.out.toNat)) .nil true false,
            r.n + rb.n, rb.rest, none⟩
        else ⟨nullValue, r.n + rb.n, rb.rest, some (.protocol "invalid bulk line ending")⟩

/-- Go `append(bline, c)` on a possibly-nil `[]byte`. -/
def blineApp : Option (List Nat) → Nat → Option (List Nat)
  | none, c => some [c]
  | some l, c => some (l ++ [c])

/-- `len(bline)` for a possibly-nil `[]byte`. -/
def blineLen : Option (List Nat) → Nat
  | none => 0
  | some l => l.length

/-- Trim a trailing `\r` (`bline = bline[:len(bline)-1]`), keeping the
slice non-nil. -/
def blineTrim : Option (List Nat) → Option (List Nat)
  | none => none
  | some l => if l ≠ [] ∧ l.getLast? = some 13 then some l.dropLast else some l

/-- Build a `Value` list from an accumulated Go `[]Value`. -/
def toVL : List Value → ValueList
  | [] => .nil
  | v :: vs => .cons v (toVL vs)

/-- The character loop of `readTelnetMultiBulk`: splits the line at
unquoted spaces into `$` values, handling the quote and must-space flags
exactly as the Go loop does. -/
def readTelnetLoop (values : List Value) (bline : Option (List Nat))
    (quote mustspace : Bool) (n : Nat) : List Nat → PRes Value
  | [] => ⟨nullValue, n, [], some .eof⟩
  | c :: rest =>
    if c = 10 then
      let bline2 := blineTrim bline
      if quote then ⟨nullValue, n + 1, rest, some (.protocol "unbalanced quotes in request")⟩
      else
        let values2 :=
          if blineLen bline2 > 0 then values ++ [Value.mk 36 0 bline2 .nil true false]
          else values
        ⟨.mk 42 0 none (toVL values2) false false, n + 1, rest, none⟩
    else if mustspace ∧ c ≠ 32 then
      ⟨nullValue, n + 1, rest, some (.protocol "unbalanced quotes in request")⟩
    else if c = 32 then
      if quote then readTelnetLoop values (blineApp bline 32) quote mustspace (n + 1) rest
      else
        readTelnetLoop (values ++ [Value.mk 36 0 bline .nil true false]) none quote mustspace
          (n + 1) rest
    else if c = 34 then
      if quote then readTelnetLoop values bline quote true (n + 1) rest
      else if blineLen bline > 0 then
        ⟨nullValue, n + 1, rest, some (.protocol "unbalanced quotes in request")⟩
      else readTelnetLoop values bline true mustspace (n + 1) rest
    else readTelnetLoop values (blineApp bline c) quote mustspace (n + 1) rest

/-- `readTelnetMultiBulk`. -/
def readTelnetMultiBulk (input : List Nat) : PRes Value :=
  readTelnetLoop [] none false false 0 input

/-- The message of the multibulk child-type protocol error
(`"expected '$', got '<c>'"`). -/
def expectedMsg (c : Nat) : String :=
  "expected \x27$\x27, got \x27" ++ String.mk [Char.ofNat c] ++ "\x27"

/-- The `err == io.EOF` conversion at the end of `readValue`. -/
def finishRV (val : Value) (telnet : Bool) (n : Nat) (rest : List Nat)
    (err : Option RErr) : RVal :=
  if err = some .eof then ⟨nullValue, telnet, n, rest, some .unexpectedEOF⟩
  else ⟨val, telnet, n, rest, err⟩

/-- The element loop of `readArrayValue`, parameterised by the child
parser (`rd.readValue(multibulk, true)`). -/
def readArrayElemsF (rv : List Nat → RVal) : Nat → List Nat → PRes ValueList
  | 0, input => ⟨.nil, 0, input, none⟩
  | k + 1, input =>
    let r := rv input
    match r.err with
    | some e => ⟨.nil, r.n, r.rest, some e⟩
    | none =>
      let rs := readArrayElemsF rv k r.rest
      match rs.err with
      | some e => ⟨.nil, r.n + rs.n, rs.rest, some e⟩
      | none => ⟨.cons r.val rs.out, r.n + rs.n, rs.rest, none⟩

/-- `readArrayValue`, parameterised by the child parser: count header,
counts above 1024*1024 fall into the error branch (which converts only
protocol errors, and otherwise returns the — possibly nil — readInt
error as is), negative counts give the null array, else the element loop. -/
def readArrayValueF (rv : List Nat → RVal) (multibulk : Bool) (input : List Nat) :
    PRes Value :=
  let r := readInt input
  if r.err ≠ none ∨ r.out > 1024 * 1024 then
    match r.err with
    | some (.protocol _) =>
      if multibulk then ⟨nullValue, r.n, r.rest, some (.protocol "invalid multibulk length")⟩
      else ⟨nullValue, r.n, r.rest, some (.protocol "invalid array length")⟩
    | e => ⟨nullValue, r.n, r.rest, e⟩
  else if r.out < 0 then ⟨.mk 42 0 none .nil true true, r.n, r.rest, none⟩
  else
    let re := readArrayElemsF rv r.out.toNat r.rest
    match re.err with
    | some e => ⟨nullValue, r.n + re.n, re.rest, some e⟩
    | none => ⟨.mk 42 0 none re.out false false, r.n + re.n, re.rest, none⟩

/-- `readValue(multibulk, child)`.  The first `Nat` is recursion fuel,
consumed one unit per nesting level; with fuel at least the nesting depth
of the input the `fuelOut` branch is unreachable. -/
def readValue : Nat → Bool → Bool → List Nat → RVal
  | 0, _, _, input => ⟨nullValue, false, 0, input, some .fuelOut⟩
  | _ + 1, _, _, [] => ⟨nullValue, false, 0, [], some .eof⟩
  | fuel + 1, multibulk, child, c :: rest =>
    if c = 42 then
      let r := readArrayValueF (readValue fuel multibulk true) multibulk rest
      finishRV r.out false (r.n + 1) r.rest r.err
    else if multibulk ∧ child = false then
      let r := readTelnetMultiBulk (c :: rest)
      finishRV r.out true (r.n + 1) r.rest r.err
    else if c = 45 ∨ c = 43 then
      let r := readSimpleValue c rest
      finishRV r.out false (r.n + 1) r.rest r.err
    else if c = 58 then
      let r := readIntegerValue rest
      finishRV r.out false (r.n + 1) r.rest r.err
    else if c = 36 then
      let r := readBulkValue rest
      finishRV r.out false (r.n + 1) r.rest r.err
    else if multibulk ∧ child then
      ⟨nullValue, false, 1, rest, some (.protocol (expectedMsg c))⟩
    else if child then
      ⟨nullValue, false, 1, rest, some (.protocol "unknown first byte")⟩
    else
      let r := readTelnetMultiBulk (c :: rest)
      finishRV r.out true (r.n + 1) r.rest r.err

/-- `Reader.ReadValue`: `readValue(false, false)` with the telnet flag
discarded. -/
def ReadValue (fuel : Nat) (input : List Nat) : RVal := readValue fuel false false input

/-- `Reader.ReadMultiBulk`: `readValue(true, false)`. -/
def ReadMultiBulk (fuel : Nat) (input : List Nat) : RVal := readValue fuel true false input

/-! ### The buffered `Reader` state machine

`chunks` models the underlying `io.Reader`: each `Read` call delivers the
next chunk (each at most `bufsz = 4096` bytes, as `Read` fills a 4096-byte
buffer); once exhausted, `Read` reports `io.EOF`.  `buf`, `p`, `l`, `s`
and `rerr` are the fields of the Go `Reader` struct. -/

structure BReader where
  chunks : List (List Nat)
  buf : List Nat
  p : Nat
  l : Nat
  s : Nat
  rerr : Option RErr

/-- A fresh reader over a chunked source. -/
def BReader.mkInit (chunks : List (List Nat)) : BReader := ⟨chunks, [], 0, 0, 0, none⟩

/-- Result of a buffered primitive read. -/
structure BRes (α : Type) where
  out : α
  n : Nat
  rd : BReader
  err : Option RErr

/-- Result of `readValueB`. -/
structure BRVal where
  val : Value
  telnet : Bool
  n : Nat
  rd : BReader
  err : Option RErr

/-- `fillBuffer`: one `Read` into a fresh 4096-byte buffer; with data and
an empty window (unless rebuffering is ignored) the whole 4096-byte buffer
replaces `rd.buf`; otherwise the `n` read bytes are appended to `rd.buf`
(at index `len(rd.buf)`). -/
def fillBuffer (ignoreRebuffering : Bool) (rd : BReader) : BReader × Option RErr :=
  match rd.rerr with
  | some e => (rd, some e)
  | none =>
    match rd.chunks with
    | [] => ({ rd with rerr := some .eof }, some .eof)
    | c :: cs =>
      let n := c.length
      let fresh := c ++ List.replicate (4096 - n) 0
      if ignoreRebuffering = false ∧ rd.l = 0 then
        ({ rd with chunks := cs, buf := fresh, p := 0, l := n, s := n }, none)
      else
        ({ rd with chunks := cs, buf := rd.buf ++ c, s := rd.s + n, l := rd.l + n }, none)

/-- `readByte` on the buffered reader (the `for rd.l < 1` refill loop is
fueled). -/
def readByteB : Nat → BReader → BRes Nat
  | 0, rd => ⟨0, 0, rd, some .fuelOut⟩
  | fuel + 1, rd =>
    if rd.l < 1 then
      match fillBuffer false rd with
      | (rd2, some e) => ⟨0, 0, rd2, some e⟩
      | (rd2, none) => readByteB fuel rd2
    else ⟨rd.buf.getD rd.p 0, 1, { rd with p := rd.p + 1, l := rd.l - 1 }, none⟩

/-- `unreadByte`: with `p > 0` the byte is written back one position left;
with `p = 0` the Go code builds a fresh buffer but never assigns it to
`rd.buf`, only bumping `l` and `s`. -/
def unreadByteB (c : Nat) (rd : BReader) : BReader :=
  if rd.p > 0 then
    { rd with p := rd.p - 1, l := rd.l + 1, buf := rd.buf.set (rd.p - 1) c }
  else { rd with l := rd.l + 1, s := rd.l + 1 }

/-- The `for rd.l < count` refill loop of `readBytes`. -/
def readBytesLoopB : Nat → Int → BReader → BRes (List Nat)
  | 0, _, rd => ⟨[], 0, rd, some .fuelOut⟩
  | fuel + 1, count, rd =>
    if (rd.l : Int) < count then
      match fillBuffer false rd with
      | (rd2, some e) => ⟨[], 0, rd2, some e⟩
      | (rd2, none) => readBytesLoopB fuel count rd2
    else
      ⟨(rd.buf.drop rd.p).take count.toNat, count.toNat,
        { rd with p := rd.p + count.toNat, l := rd.l - count.toNat }, none⟩

/-- `readBytes` on the buffered reader. -/
def readBytesB (fuel : Nat) (count : Int) (rd : BReader) : BRes (List Nat) :=
  if count < 0 then ⟨[], 0, rd, some .invalidArg⟩
  else readBytesLoopB fuel count rd

/-- The inner `for l == 0` refill loop of `readLine`; returns the new
reader state and the recomputed local `l`. -/
def readLineFillB : Nat → Nat → BReader → (BReader × Nat × Option RErr)
  | 0, _, rd => (rd, 0, some .fuelOut)
  | fuel + 1, p, rd =>
    match fillBuffer true rd with
    | (rd2, some e) => (rd2, 0, some e)
    | (rd2, none) =>
      let l2 := rd2.l - (p - rd2.p)
      if l2 = 0 then readLineFillB fuel p rd2 else (rd2, l2, none)

/-- The scan loop of `readLine` on the buffered reader, with its local
`p`, `l`, `n`, `lc`. -/
def readLineLoopB : Nat → BReader → Nat → Nat → Nat → Nat → BRes (List Nat)
  | 0, rd, _, _, _, _ => ⟨[], 0, rd, some .fuelOut⟩
  | fuel + 1, rd, p, l, n, lc =>
    if l = 0 then
      match readLineFillB (fuel + 1) p rd with
      | (rd2, _, some e) => ⟨[], 0, rd2, some e⟩
      | (rd2, l2, none) => readLineLoopB fuel rd2 p l2 n lc
    else
      let c := rd.buf.getD p 0
      if c = 10 ∧ lc = 13 then
        ⟨(rd.buf.drop rd.p).take (n + 1 - 2), n + 1,
          { rd with p := p + 1, l := rd.l - (n + 1) }, none⟩
      else readLineLoopB fuel rd (p + 1) (l - 1) (n + 1) c

/-- `readLine` on the buffered reader. -/
def readLineB (fuel : Nat) (rd : BReader) : BRes (List Nat) :=
  readLineLoopB fuel rd rd.p rd.l 0 0

/-- The digit loop of `readInt` on the buffered reader; `c` is the byte in
hand (already counted in `n`). -/
def readIntLoopB : Nat → Int → Int → Nat → Nat → BReader → BRes Int
  | 0, _, _, _, _, rd => ⟨0, 0, rd, some .fuelOut⟩
  | fuel + 1, neg, length, n, c, rd =>
    if c = 13 then
      match readByteB (fuel + 1) rd with
      | ⟨_, rn, rd2, some e⟩ => ⟨0, n + rn, rd2, some e⟩
      | ⟨c2, rn, rd2, none⟩ =>
        if c2 = 10 then ⟨wrap64 (length * neg), n + rn, rd2, none⟩
        else ⟨0, n + rn, rd2, some (.protocol "invalid length")⟩
    else if 48 ≤ c ∧ c ≤ 57 then
      match readByteB (fuel + 1) rd with
      | ⟨_, rn, rd2, some e⟩ => ⟨0, n + rn, rd2, some e⟩
      | ⟨c2, rn, rd2, none⟩ =>
        readIntLoopB fuel neg (wrap64 (length * 10 + ((c : Int) - 48))) (n + rn) c2 rd2
    else ⟨0, n, rd, some (.protocol "invalid length")⟩

/-- `readInt` on the buffered reader. -/
def readIntB (fuel : Nat) (rd : BReader) : BRes Int :=
  match readByteB fuel rd with
  | ⟨_, rn, rd2, some e⟩ => ⟨0, rn, rd2, some e⟩
  | ⟨c, rn, rd2, none⟩ =>
    if c = 45 then
      match readByteB fuel rd2 with
      | ⟨_, rn2, rd3, some e⟩ => ⟨0, rn + rn2, rd3, some e⟩
      | ⟨c2, rn2, rd3, none⟩ => readIntLoopB fuel (-1) 0 (rn + rn2) c2 rd3
    else readIntLoopB fuel 1 0 rn c rd2

/-- `readSimpleValue` on the buffered reader. -/
def readSimpleValueB (fuel : Nat) (typ : Nat) (rd : BReader) : BRes Value :=
  let r := readLineB fuel rd
  match r.err with
  | some e => ⟨nullValue, r.n, r.rd, some e⟩
  | none => ⟨.mk typ 0 (some r.out) .nil true false, r.n, r.rd, none⟩

/-- `readIntegerValue` on the buffered reader. -/
def readIntegerValueB (fuel : Nat) (rd : BReader) : BRes Value :=
  let r := readIntB fuel rd
  match r.err with
  | some (.protocol _) => ⟨nullValue, r.n, r.rd, some (.protocol "invalid integer")⟩
  | some e => ⟨nullValue, r.n, r.rd, some e⟩
  | none => ⟨.mk 58 r.out none .nil true false, r.n, r.rd, none⟩

/-- `readBulkValue` on the buffered reader. -/
def readBulkValueB (fuel : Nat) (rd : BReader) : BRes Value :=
  let r := readIntB fuel rd
  match r.err with
  | some (.protocol _) => ⟨nullValue, r.n, r.rd, some (.protocol "invalid bulk length")⟩
  | some e => ⟨nullValue, r.n, r.rd, some e⟩
  | none =>
    if r.out < 0 then ⟨.mk 36 0 none .nil true true, r.n, r.rd, none⟩
    else if r.out > 512 * 1024 * 1024 then
      ⟨nullValue, r.n, r.rd, some (.protocol "invalid bulk length")⟩
    else
      let rb := readBytesB fuel (r.out + 2) r.rd
      match rb.err with
      | some e => ⟨nullValue, r.n + rb.n, rb.rd, some e⟩
      | none =>
        if rb.out.getD r.out.toNat 0 = 13 ∧ rb.out.getD (r.out.toNat + 1) 0 = 10 then
          ⟨.mk 36 0 (some (rb.out.take r.out.toNat)) .nil true false,
            r.n + rb.n, rb.rd, none⟩
        else ⟨nullValue, r.n + rb.n, rb.rd, some (.protocol "invalid bulk line ending")⟩

/-- The character loop of `readTelnetMultiBulk` on the buffered reader. -/
def readTelnetLoopB : Nat → List Value → Option (List Nat) → Bool → Bool → Nat → BReader →
    BRes Value
  | 0, _, _, _, _, _, rd => ⟨nullValue, 0, rd, some .fuelOut⟩
  | fuel + 1, values, bline, quote, mustspace, n, rd =>
    match readByteB (fuel + 1) rd with
    | ⟨_, rn, rd2, some e⟩ => ⟨nullValue, n + rn, rd2, some e⟩
    | ⟨c, rn, rd2, none⟩ =>
      if c = 10 then
        let bline2 := blineTrim bline
        if quote then
          ⟨nullValue, n + rn, rd2, some (.protocol "unbalanced quotes in request")⟩
        else
          let values2 :=
            if blineLen bline2 > 0 then values ++ [Value.mk 36 0 bline2 .nil true false]
            else values
          ⟨.mk 42 0 none (toVL values2) false false, n + rn, rd2, none⟩
      else if mustspace ∧ c ≠ 32 then
        ⟨nullValue, n + rn, rd2, some (.protocol "unbalanced quotes in request")⟩
      else if c = 32 then
        if quote then readTelnetLoopB fuel values (blineApp bline 32) quote mustspace (n + rn) rd2
        else
          readTelnetLoopB fuel (values ++ [Value.mk 36 0 bline .nil true false]) none quote
            mustspace (n + rn) rd2
      else if c = 34 then
        if quote then readTelnetLoopB fuel values bline quote true (n + rn) rd2
        else if blineLen bline > 0 then
          ⟨nullValue, n + rn, rd2, some (.protocol "unbalanced quotes in request")⟩
        else readTelnetLoopB fuel values bline true mustspace (n + rn) rd2
      else readTelnetLoopB fuel values (blineApp bline c) quote mustspace (n + rn) rd2

/-- `readTelnetMultiBulk` on the buffered reader. -/
def readTelnetMultiBulkB (fuel : Nat) (rd : BReader) : BRes Value :=
  readTelnetLoopB fuel [] none false false 0 rd

/-- The `err == io.EOF` conversion at the end of `readValueB`. -/
def finishB (val : Value) (telnet : Bool) (n : Nat) (rd : BReader) (err : Option RErr) :
    BRVal :=
  if err = some .eof then ⟨nullValue, telnet, n, rd, some .unexpectedEOF⟩
  else ⟨val, telnet, n, rd, err⟩

/-- The element loop of `readArrayValue` on the buffered reader,
parameterised by the child parser. -/
def readArrayElemsBF (rv : BReader → BRVal) : Nat → BReader → BRes ValueList
  | 0, rd => ⟨.nil, 0, rd, none⟩
  | k + 1, rd =>
    let r := rv rd
    match r.err with
    | some e => ⟨.nil, r.n, r.rd, some e⟩
    | none =>
      let rs := readArrayElemsBF rv k r.rd
      match rs.err with
      | some e => ⟨.nil, r.n + rs.n, rs.rd, some e⟩
      | none => ⟨.cons r.val rs.out, r.n + rs.n, rs.rd, none⟩

/-- `readArrayValue` on the buffered reader, parameterised by the child
parser. -/
def readArrayValueBF (rv : BReader → BRVal) (fuel : Nat) (multibulk : Bool) (rd : BReader) :
    BRes Value :=
  let r := readIntB fuel rd
  if r.err ≠ none ∨ r.out > 1024 * 1024 then
    match r.err with
    | some (.protocol _) =>
      if multibulk then ⟨nullValue, r.n, r.rd, some (.protocol "invalid multibulk length")⟩
      else ⟨nullValue, r.n, r.rd, some (.protocol "invalid array length")⟩
    | e => ⟨nullValue, r.n, r.rd, e⟩
  else if r.out < 0 then ⟨.mk 42 0 none .nil true true, r.n, r.rd, none⟩
  else
    let re := readArrayElemsBF rv r.out.toNat r.rd
    match re.err with
    | some e => ⟨nullValue, r.n + re.n, re.rd, some e⟩
    | none => ⟨.mk 42 0 none re.out false false, r.n + re.n, re.rd, none⟩

/-- `readValue` on the buffered reader; fuel is consumed per nesting
level. -/
def readValueB : Nat → Bool → Bool → BReader → BRVal
  | 0, _, _, rd => ⟨nullValue, false, 0, rd, some .fuelOut⟩
  | fuel + 1, multibulk, child, rd =>
    match readByteB (fuel + 1) rd with
    | ⟨_, rn, rd2, some e⟩ => ⟨nullValue, false, rn, rd2, some e⟩
    | ⟨c, rn, rd2, none⟩ =>
      if c = 42 then
        let r := readArrayValueBF (readValueB fuel multibulk true) (fuel + 1) multibulk rd2
        finishB r.out false (r.n + rn) r.rd r.err
      else if multibulk ∧ child = false then
        let r := readTelnetMultiBulkB (fuel + 1) (unreadByteB c rd2)
        finishB r.out true (r.n + rn) r.rd r.err
      else if c = 45 ∨ c = 43 then
        let r := readSimpleValueB (fuel + 1) c rd2
        finishB r.out false (r.n + rn) r.rd r.err
      else if c = 58 then
        let r := readIntegerValueB (fuel + 1) rd2
        finishB r.out false (r.n + rn) r.rd r.err
      else if c = 36 then
        let r := readBulkValueB (fuel + 1) rd2
        finishB r.out false (r.n + rn) r.rd r.err
      else if multibulk ∧ child then
        ⟨nullValue, false, rn, rd2, some (.protocol (expectedMsg c))⟩
      else if child then
        ⟨nullValue, false, rn, rd2, some (.protocol "unknown first byte")⟩
      else
        let r := readTelnetMultiBulkB (fuel + 1) (unreadByteB c rd2)
        finishB r.out true (r.n + rn) r.rd r.err

/-- `Reader.ReadValue` on the buffered reader. -/
def ReadValueB (fuel : Nat) (chunks : List (List Nat)) : BRVal :=
  readValueB fuel false false (BReader.mkInit chunks)

/-! ### Typed accessors (`String`, `Bytes`, `Array`, `Integer`) -/

/-- Space-joined rendering of a list of strings, as `fmt` does for slice
elements. -/
def joinSp : List (List Nat) → List Nat
  | [] => []
  | [x] => x
  | x :: y :: xs => x ++ 32 :: joinSp (y :: xs)

mutual

/-- `Value.String`: bulk/simple/error return the raw bytes, integers their
decimal form, arrays the `fmt`-style `[elem elem ...]` rendering, anything
else the empty string. -/
def StringGo : Value → List Nat
  | .mk t i s a _ _ =>
    if t = 36 then strD s
    else if t = 43 ∨ t = 45 then strD s
    else if t = 58 then intRepr i
    else if t = 42 then 91 :: (joinSp (StringGoList a) ++ [93])
    else []

/-- `String()` of each element of a `[]Value`. -/
def StringGoList : ValueList → List (List Nat)
  | .nil => []
  | .cons hd tl => StringGo hd :: StringGoList tl

end

/-- `Value.Bytes`: the raw (possibly nil) byte slice for `$`/`+`/`-`,
otherwise the bytes of the string form. -/
def BytesGo (v : Value) : Option (List Nat) :=
  if v.typ = 36 ∨ v.typ = 43 ∨ v.typ = 45 then v.str else some (StringGo v)

/-- `Value.Array`: the underlying (possibly nil) slice for a non-null
array, nil otherwise. -/
def ArrayGo (v : Value) : Option ValueList :=
  if v.typ = 42 ∧ v.null = false then (if v.arrayNil then none else some v.array)
  else none

/-- The digit loop of `strconv.ParseUint(s, 10, 64)`: returns the value
together with range/syntax error flags; on overflow it clamps to
`2^64 - 1` immediately, on a non-digit it reports a syntax error. -/
def parseUint64Loop : Nat → List Nat → Nat × Bool × Bool
  | n, [] => (n, false, false)
  | n, c :: rest =>
    if c < 48 ∨ 57 < c then (0, false, true)
    else if 1844674407370955162 ≤ n then (18446744073709551615, true, false)
    else
      let n1 := n * 10 + (c - 48)
      if n1 > 18446744073709551615 then (18446744073709551615, true, false)
      else parseUint64Loop n1 rest

/-- `strconv.ParseInt(s, 10, 64)` with the error discarded, as
`Value.Integer` uses it: optional sign, `ParseUint` digits, clamping to
the `int64` bounds on range error, `0` on syntax error. -/
def goParseInt64 (s : List Nat) : Int :=
  match s with
  | [] => 0
  | c :: rest =>
    let p : Bool × List Nat :=
      if c = 43 then (false, rest) else if c = 45 then (true, rest) else (false, s)
    match p.2 with
    | [] => 0
    | _ =>
      let r := parseUint64Loop 0 p.2
      if r.2.2 then 0
      else if p.1 = false ∧ 2 ^ 63 ≤ r.1 then 2 ^ 63 - 1
      else if p.1 ∧ 2 ^ 63 < r.1 then -(2 ^ 63)
      else if p.1 then -(r.1 : Int) else (r.1 : Int)

/-- `Value.Integer`: the stored integer for `:` values, otherwise the
string form parsed by `strconv.ParseInt` with the error discarded. -/
def IntegerGo (v : Value) : Int :=
  if v.typ = 58 then v.integer else goParseInt64 (StringGo v)

/-- `IntegerValue`. -/
def IntegerValue (i : Int) : Value := .mk 58 i none .nil true false

/-- `StringValue` (a bulk string). -/
def StringValue (s : List Nat) : Value := .mk 36 0 (some s) .nil true false

/-! ### The `Writer` -/

/-- An output sink: the list of writes performed so far, and the error the
underlying `Write` reports (modelling a failing sink). -/
structure GoWriter where
  written : List (List Nat)
  werr : Option String

/-- One `Write` call on the sink: records the bytes, reports the sink's
error. -/
def goWrite (w : GoWriter) (b : List Nat) : GoWriter × Nat × Option String :=
  ({ w with written := w.written ++ [b] }, b.length, w.werr)

/-- `Writer.WriteValue`: marshal, return marshal errors, perform one write
of the bytes — and then `return nil`, discarding the write's error. -/
def WriteValue (w : GoWriter) (v : Value) : GoWriter × Option String :=
  match marshalAnyRESP v with
  | .error e => (w, some e)
  | .ok b =>
    let r := goWrite w b
    (r.1, none)

/-! ### The wire-message grammar

`Msg` is the grammar of canonical wire messages — the byte strings the
five value kinds marshal to.  `validB` bounds the payloads the way the
reader accepts them: line payloads contain no CRLF pair, integers fit in
an `int64`, bulk payloads stay within 512 MiB, arrays within 1,048,576
elements, and every byte is a byte. -/

mutual

inductive Msg where
  | simple (s : List Nat)
  | error (s : List Nat)
  | int (i : Int)
  | bulk (b : List Nat)
  | nullBulk
  | array (elems : MsgList)
  | nullArray

inductive MsgList where
  | nil
  | cons (hd : Msg) (tl : MsgList)

end

def MsgList.length : MsgList → Nat
  | .nil => 0
  | .cons _ tl => tl.length + 1

mutual

/-- The wire bytes of a message. -/
def encode : Msg → List Nat
  | .simple s => 43 :: (s ++ [13, 10])
  | .error s => 45 :: (s ++ [13, 10])
  | .int i => 58 :: (intRepr i ++ [13, 10])
  | .bulk b => 36 :: (natRepr b.length ++ [13, 10] ++ (b ++ [13, 10]))
  | .nullBulk => [36, 45, 49, 13, 10]
  | .array es => 42 :: (natRepr (MsgList.length es) ++ [13, 10] ++ encodeList es)
  | .nullArray => [42, 45, 49, 13, 10]
termination_by structural m => m

/-- The concatenated wire bytes of a message list. -/
def encodeList : MsgList → List Nat
  | .nil => []
  | .cons hd tl => encode hd ++ encodeList tl
termination_by structural l => l

end

/-- No `\r\n` pair occurs in the list. -/
def noCRLFB : List Nat → Bool
  | [] => true
  | [_] => true
  | a :: b :: rest => (!decide (a = 13 ∧ b = 10)) && noCRLFB (b :: rest)

/-- All entries are bytes. -/
def bytesOk (l : List Nat) : Bool := l.all (fun c => decide (c < 256))

mutual

/-- Validity of a message: payload constraints under which the reader
accepts and reproduces it. -/
def validB : Msg → Bool
  | .simple s => noCRLFB s && bytesOk s
  | .error s => noCRLFB s && bytesOk s
  | .int i => decide (-(2 ^ 63) ≤ i) && decide (i < 2 ^ 63)
  | .bulk b => decide (b.length ≤ 512 * 1024 * 1024) && bytesOk b
  | .nullBulk => true
  | .array es => decide (MsgList.length es ≤ 1024 * 1024) && validListB es
  | .nullArray => true
termination_by structural m => m

def validListB : MsgList → Bool
  | .nil => true
  | .cons hd tl => validB hd && validListB tl
termination_by structural l => l

end

mutual

/-- The `Value` the reader produces for a message. -/
def toValue : Msg → Value
  | .simple s => .mk 43 0 (some s) .nil true false
  | .error s => .mk 45 0 (some s) .nil true false
  | .int i => .mk 58 i none .nil true false
  | .bulk b => .mk 36 0 (some b) .nil true false
  | .nullBulk => .mk 36 0 none .nil true true
  | .array es => .mk 42 0 none (toValueList es) false false
  | .nullArray => .mk 42 0 none .nil true true
termination_by structural m => m

def toValueList : MsgList → ValueList
  | .nil => .nil
  | .cons hd tl => .cons (toValue hd) (toValueList tl)
termination_by structural l => l

end

mutual

/-- Fuel requirement (nesting depth) of a message. -/
def req : Msg → Nat
  | .array es => reqList es + 1
  | _ => 1
termination_by structural m => m

def reqList : MsgList → Nat
  | .nil => 1
  | .cons hd tl => max (req hd) (reqList tl)
termination_by structural l => l

end

/-- Messages whose leading byte is `*`. -/
def isStar : Msg → Bool
  | .array _ => true
  | .nullArray => true
  | _ => false

/-- Telnet-line payload constraint: no line feed, no double quote (and all
bytes). -/
def telnetSafe (l : List Nat) : Bool := l.all (fun c => decide (c ≠ 10 ∧ c ≠ 34 ∧ c < 256))

/-- All entries are ASCII decimal digits. -/
def digitsOkB (ds : List Nat) : Bool := ds.all (fun d => decide (48 ≤ d ∧ d ≤ 57))

/-- Value of a digit-byte list under the `acc * 10 + digit` fold. -/
def digitsToNat : Nat → List Nat → Nat
  | a, [] => a
  | a, d :: ds => digitsToNat (a * 10 + (d - 48)) ds

/-- Bytes of an ASCII string, for concrete test inputs. -/
def strBytes (s : String) : List Nat := s.data.map (fun c => c.toNat)

/-- A concrete nested message exercising all five kinds. -/
def c1msg : Msg :=
  .array (.cons (.simple [79, 75]) (.cons (.int (-5)) (.cons (.bulk [97, 98])
    (.cons .nullBulk (.cons (.array (.cons (.int 7) .nil)) (.cons .nullArray .nil))))))

/-! ## Lemmas -/

theorem wrap64_eq (x : Int) (h1 : -(2 ^ 63) ≤ x) (h2 : x < 2 ^ 63) : wrap64 x = x := by
  unfold wrap64
  omega

@[simp] theorem digitsToNat_nil (a : Nat) : digitsToNat a [] = a := rfl

@[simp] theorem digitsToNat_cons (a d : Nat) (ds : List Nat) :
    digitsToNat a (d :: ds) = digitsToNat (a * 10 + (d - 48)) ds := rfl

theorem digitsToNat_le : ∀ (ds : List Nat) (a : Nat), a ≤ digitsToNat a ds
  | [], _ => le_refl _
  | d :: ds, a =>
    le_trans (by omega : a ≤ a * 10 + (d - 48)) (digitsToNat_le ds (a * 10 + (d - 48)))

theorem digitsToNat_append (a : Nat) (xs ys : List Nat) :
    digitsToNat a (xs ++ ys) = digitsToNat (digitsToNat a xs) ys := by
  induction xs generalizing a with
  | nil => rw [List.nil_append, digitsToNat_nil]
  | cons x xs ih => rw [List.cons_append, digitsToNat_cons, digitsToNat_cons, ih]

theorem digitsToNat_natDigits (n : Nat) : ∀ a, digitsToNat a (natDigits n) = a * 10 ^ (natDigits n).length + n := by
  induction n using Nat.strong_induction_on with
  | _ n ih =>
    intro a
    by_cases h0 : n = 0
    · subst h0
      rw [show natDigits 0 = [] from by rw [natDigits]; simp]
      simp
    · rw [natDigits, dif_neg h0, digitsToNat_append,
        ih (n / 10) (Nat.div_lt_self (Nat.pos_of_ne_zero h0) (by norm_num))]
      simp only [digitsToNat_cons, digitsToNat_nil, List.length_append, List.length_cons,
        List.length_nil]
      have hmod : n % 10 + 48 - 48 = n % 10 := by omega
      rw [hmod, pow_succ]
      calc (a * 10 ^ (natDigits (n / 10)).length + n / 10) * 10 + n % 10
          = a * (10 ^ (natDigits (n / 10)).length * 10) + (10 * (n / 10) + n % 10) := by ring
        _ = a * (10 ^ (natDigits (n / 10)).length * 10) + n := by rw [Nat.div_add_mod]

theorem digitsToNat_natRepr (n : Nat) : digitsToNat 0 (natRepr n) = n := by
  unfold natRepr
  by_cases h0 : n = 0
  · subst h0; simp
  · rw [if_neg h0, digitsToNat_natDigits]
    omega

theorem natDigits_ok (n : Nat) : digitsOkB (natDigits n) = true := by
  induction n using Nat.strong_induction_on with
  | _ n ih =>
    by_cases h0 : n = 0
    · subst h0
      rw [show natDigits 0 = [] from by rw [natDigits]; simp]
      simp [digitsOkB]
    · rw [natDigits, dif_neg h0]
      have h1 := ih (n / 10) (Nat.div_lt_self (Nat.pos_of_ne_zero h0) (by norm_num))
      have h2 : n % 10 < 10 := Nat.mod_lt _ (by norm_num)
      simp only [digitsOkB, List.all_append, List.all_cons, List.all_nil, Bool.and_eq_true] at *
      refine ⟨h1, by simp; omega, trivial⟩

theorem natRepr_ok (n : Nat) : digitsOkB (natRepr n) = true := by
  unfold natRepr
  by_cases h0 : n = 0
  · simp [h0, digitsOkB]
  · rw [if_neg h0]; exact natDigits_ok n

theorem natRepr_ne_nil (n : Nat) : natRepr n ≠ [] := by
  unfold natRepr
  by_cases h0 : n = 0
  · simp [h0]
  · rw [if_neg h0, natDigits, dif_neg h0]
    simp

/-- Running the `readInt` digit loop over in-range digits accumulates
their value without wrapping. -/
theorem readIntLoop_run (ds : List Nat) : ∀ (tail : List Nat) (neg : Int) (a n : Nat),
    digitsOkB ds = true → digitsToNat a ds < 2 ^ 63 →
    readIntLoop neg (a : Int) n (ds ++ tail) =
      readIntLoop neg ((digitsToNat a ds : Nat) : Int) (n + ds.length) tail := by
  induction ds with
  | nil =>
    intro tail neg a n _ _
    simp only [List.nil_append, digitsToNat_nil, List.length_nil, add_zero]
  | cons d ds ih =>
    intro tail neg a n hok hb
    simp only [digitsOkB, List.all_cons, Bool.and_eq_true, decide_eq_true_eq] at hok
    obtain ⟨⟨hd1, hd2⟩, hok⟩ := hok
    have hne13 : d ≠ 13 := by omega
    have hstep : digitsToNat a (d :: ds) = digitsToNat (a * 10 + (d - 48)) ds := rfl
    have hlt : a * 10 + (d - 48) < 2 ^ 63 := by
      have := digitsToNat_le ds (a * 10 + (d - 48))
      rw [hstep] at hb
      omega
    have hcast : wrap64 ((a : Int) * 10 + ((d : Int) - 48)) = ((a * 10 + (d - 48) : Nat) : Int) := by
      have : (a : Int) * 10 + ((d : Int) - 48) = ((a * 10 + (d - 48) : Nat) : Int) := by
        push_cast
        omega
      rw [this, wrap64_eq] <;> push_cast <;> omega
    simp only [List.cons_append, readIntLoop, if_neg (by simp [hne13] : ¬(d = 13)),
      if_pos (by exact ⟨hd1, hd2⟩ : 48 ≤ d ∧ d ≤ 57), hcast, List.append_eq]
    rw [ih tail neg (a * 10 + (d - 48)) (n + 1) (by simpa [digitsOkB] using hok)
      (by rw [← hstep]; exact hb)]
    rw [hstep]
    have hc : n + (d :: ds).length = n + 1 + ds.length := by simp; omega
    rw [hc]

theorem readInt_natRepr (m : Nat) (rest : List Nat) (hm : m < 2 ^ 63) :
    readInt (natRepr m ++ 13 :: 10 :: rest) = ⟨(m : Int), (natRepr m).length + 2, rest, none⟩ := by
  obtain ⟨d, ds, hds⟩ : ∃ d ds, natRepr m = d :: ds := by
    cases h : natRepr m with
    | nil => exact absurd h (natRepr_ne_nil m)
    | cons d ds => exact ⟨d, ds, rfl⟩
  have hok := natRepr_ok m
  rw [hds] at hok
  simp only [digitsOkB, List.all_cons, Bool.and_eq_true, decide_eq_true_eq] at hok
  have hd45 : d ≠ 45 := by omega
  have hdv : digitsToNat 0 (natRepr m) = m := digitsToNat_natRepr m
  have hrun := readIntLoop_run (natRepr m) (13 :: 10 :: rest) 1 0 0 (natRepr_ok m)
    (by rw [hdv]; exact hm)
  rw [hdv] at hrun
  rw [hds]
  simp only [List.cons_append, readInt, if_neg (by simp [hd45] : ¬(d = 45))]
  rw [← List.cons_append, ← hds]
  rw [show ((0 : Nat) : Int) = (0 : Int) from rfl] at hrun
  rw [hrun]
  simp only [readIntLoop, if_pos rfl]
  rw [mul_one, wrap64_eq ((m : Nat) : Int) (by omega) (by omega)]
  simp

theorem readIntLoop_term (neg length : Int) (n : Nat) (rest : List Nat) :
    readIntLoop neg length n (13 :: 10 :: rest) = ⟨wrap64 (length * neg), n + 2, rest, none⟩ := rfl

theorem readIntLoop_digitStep (neg length : Int) (n c : Nat) (rest : List Nat)
    (h1 : 48 ≤ c) (h2 : c ≤ 57) :
    readIntLoop neg length n (c :: rest) =
      readIntLoop neg (wrap64 (length * 10 + ((c : Int) - 48))) (n + 1) rest := by
  simp only [readIntLoop]
  rw [if_neg (by omega : ¬(c = 13)), if_pos ⟨h1, h2⟩]

theorem readInt_neg45 (rest : List Nat) (hne : rest ≠ []) :
    readInt (45 :: rest) = readIntLoop (-1) 0 1 rest := by
  cases rest with
  | nil => exact absurd rfl hne
  | cons c2 rest2 => rfl

theorem readInt_nosign (c : Nat) (rest : List Nat) (hc : c ≠ 45) :
    readInt (c :: rest) = readIntLoop 1 0 0 (c :: rest) := by
  simp only [readInt]
  rw [if_neg hc]

theorem readIntLoop_natRepr (m : Nat) (neg : Int) (n : Nat) (rest : List Nat)
    (hm : m < 2 ^ 63) :
    readIntLoop neg (((0 : Nat) : Int)) n (natRepr m ++ 13 :: 10 :: rest) =
      ⟨wrap64 ((m : Int) * neg), n + (natRepr m).length + 2, rest, none⟩ := by
  have hdv : digitsToNat 0 (natRepr m) = m := digitsToNat_natRepr m
  rw [readIntLoop_run (natRepr m) (13 :: 10 :: rest) neg 0 n (natRepr_ok m) (by rw [hdv]; exact hm)]
  rw [hdv, readIntLoop_term]

theorem intRepr_min64 : intRepr (-(2 ^ 63)) = 45 :: (natRepr 922337203685477580 ++ [56]) := by
  rw [intRepr, if_pos (by norm_num)]
  rw [show ((-(-(2 ^ 63) : Int)).toNat) = 9223372036854775808 from by omega]
  rw [natRepr, if_neg (by norm_num), natDigits, dif_neg (by norm_num)]
  rw [show (9223372036854775808 : Nat) / 10 = 922337203685477580 from by norm_num,
    show (9223372036854775808 : Nat) % 10 + 48 = 56 from by norm_num]
  rw [natRepr, if_neg (by norm_num)]

theorem readInt_min64_s1 (rest : List Nat) :
    readInt (intRepr (-(2 ^ 63)) ++ 13 :: 10 :: rest) =
      readIntLoop (-1) 0 1 ((natRepr 922337203685477580 ++ [56]) ++ 13 :: 10 :: rest) := by
  rw [intRepr_min64, List.cons_append, readInt_neg45 _ (by simp)]

theorem readInt_min64_s2 (rest : List Nat) :
    readIntLoop (-1) 0 1 ((natRepr 922337203685477580 ++ [56]) ++ 13 :: 10 :: rest) =
      readIntLoop (-1) ((922337203685477580 : Nat) : Int)
        (1 + (natRepr 922337203685477580).length) (56 :: 13 :: 10 :: rest) := by
  rw [List.append_assoc]
  rw [show ([56] ++ 13 :: 10 :: rest : List Nat) = 56 :: 13 :: 10 :: rest from rfl]
  rw [show (0 : Int) = ((0 : Nat) : Int) from rfl,
    readIntLoop_run (natRepr 922337203685477580) (56 :: 13 :: 10 :: rest) (-1) 0 1
      (natRepr_ok _) (by rw [digitsToNat_natRepr]; norm_num)]
  rw [digitsToNat_natRepr]

theorem readInt_min64_s3 (rest : List Nat) :
    readIntLoop (-1) ((922337203685477580 : Nat) : Int)
        (1 + (natRepr 922337203685477580).length) (56 :: 13 :: 10 :: rest) =
      ⟨-(2 ^ 63), 1 + (natRepr 922337203685477580).length + 1 + 2, rest, none⟩ := by
  rw [readIntLoop_digitStep _ _ _ _ _ (by norm_num) (by norm_num)]
  rw [show wrap64 (((922337203685477580 : Nat) : Int) * 10 + (((56 : Nat) : Int) - 48)) =
    -(2 ^ 63) from by norm_num [wrap64]]
  rw [readIntLoop_term]
  rw [show wrap64 (-(2 ^ 63) * -1) = -(2 ^ 63) from by norm_num [wrap64]]

theorem readInt_min64_len (L : List Nat) :
    (45 :: (L ++ [56])).length + 2 = 1 + L.length + 1 + 2 := by
  simp only [List.length_cons, List.length_append, List.length_nil]
  ring

theorem readInt_min64 (rest : List Nat) :
    readInt (intRepr (-(2 ^ 63)) ++ 13 :: 10 :: rest) =
      ⟨-(2 ^ 63), (intRepr (-(2 ^ 63))).length + 2, rest, none⟩ := by
  rw [show (intRepr (-(2 ^ 63))).length + 2 =
    1 + (natRepr 922337203685477580).length + 1 + 2 from by
      rw [intRepr_min64]; exact readInt_min64_len _]
  exact (readInt_min64_s1 rest).trans ((readInt_min64_s2 rest).trans (readInt_min64_s3 rest))

theorem readInt_intRepr (i : Int) (rest : List Nat) (h1 : -(2 ^ 63) ≤ i) (h2 : i < 2 ^ 63) :
    readInt (intRepr i ++ 13 :: 10 :: rest) = ⟨i, (intRepr i).length + 2, rest, none⟩ := by
  by_cases hneg : i < 0
  · by_cases hedge : i = -(2 ^ 63)
    · subst hedge
      exact readInt_min64 rest
    · have hmlt : (-i).toNat < 2 ^ 63 := by omega
      have hcast : (((-i).toNat : Nat) : Int) = -i := by omega
      rw [intRepr, if_pos hneg, List.cons_append, readInt_neg45 _ (by simp)]
      rw [show (0 : Int) = ((0 : Nat) : Int) from rfl, readIntLoop_natRepr _ _ _ _ hmlt]
      rw [hcast]
      rw [show (-i) * (-1) = i from by ring, wrap64_eq i h1 h2]
      simp only [List.length_cons]
      rw [show 1 + (natRepr (-i).toNat).length + 2 = (natRepr (-i).toNat).length + 1 + 2 from by
        omega]
  · have hmlt : i.toNat < 2 ^ 63 := by omega
    have := readInt_natRepr i.toNat rest hmlt
    rw [intRepr, if_neg hneg]
    rw [this]
    rw [show ((i.toNat : Nat) : Int) = i from by omega]

theorem noCRLFB_cons (a : Nat) (s : List Nat) (h : noCRLFB (a :: s) = true) :
    noCRLFB s = true ∧ (a = 13 → s.head? ≠ some 10) := by
  cases s with
  | nil => simp [noCRLFB]
  | cons b t =>
    simp only [noCRLFB, Bool.and_eq_true, Bool.not_eq_true', decide_eq_false_iff_not] at h
    refine ⟨h.2, ?_⟩
    intro ha
    simp only [List.head?_cons, ne_eq, Option.some.injEq]
    intro hb
    exact h.1 ⟨ha, hb⟩

theorem readLineLoop_stop (full rest : List Nat) (n : Nat) :
    readLineLoop full 13 n (10 :: rest) =
      ⟨full.take (n + 1 - 2), n + 1, full.drop (n + 1), none⟩ := rfl

theorem readLineLoop_step (full rest : List Nat) (lc n c : Nat) (h : ¬(c = 10 ∧ lc = 13)) :
    readLineLoop full lc n (c :: rest) = readLineLoop full c (n + 1) rest := by
  simp only [readLineLoop]
  rw [if_neg h]

theorem readLineLoop_spec : ∀ (s : List Nat) (full rest : List Nat) (lc n : Nat),
    noCRLFB s = true → (lc = 13 → s.head? ≠ some 10) →
    readLineLoop full lc n (s ++ 13 :: 10 :: rest) =
      ⟨full.take (n + s.length), n + s.length + 2, full.drop (n + s.length + 2), none⟩ := by
  intro s
  induction s with
  | nil =>
    intro full rest lc n _ _
    simp only [List.length_nil, add_zero, List.nil_append]
    rw [readLineLoop_step _ _ _ _ _ (by simp), readLineLoop_stop]
    rw [show n + 1 + 1 - 2 = n from by omega, show n + 1 + 1 = n + 2 from by omega]
  | cons a s ih =>
    intro full rest lc n hok hhd
    obtain ⟨hs, hcond⟩ := noCRLFB_cons a s hok
    have hnot : ¬(a = 10 ∧ lc = 13) := by
      rintro ⟨ha, hlc⟩
      exact hhd hlc (by simp [ha])
    rw [List.cons_append, readLineLoop_step _ _ _ _ _ hnot, ih full rest a (n + 1) hs hcond]
    simp only [List.length_cons]
    rw [show n + 1 + s.length = n + (s.length + 1) from by omega]

theorem readLine_encode (s rest : List Nat) (h : noCRLFB s = true) :
    readLine (s ++ 13 :: 10 :: rest) = ⟨s, s.length + 2, rest, none⟩ := by
  unfold readLine
  rw [readLineLoop_spec s (s ++ 13 :: 10 :: rest) rest 0 0 h (by simp)]
  simp only [zero_add]
  have ht : (s ++ 13 :: 10 :: rest).take s.length = s := List.take_left s _
  have hd : (s ++ 13 :: 10 :: rest).drop (s.length + 2) = rest := by
    rw [show s ++ 13 :: 10 :: rest = (s ++ [13, 10]) ++ rest from by simp,
      show s.length + 2 = (s ++ [13, 10]).length from by simp]
    exact List.drop_left _ _
  rw [ht, hd]

theorem readSimpleValue_encode (t : Nat) (s rest : List Nat) (h : noCRLFB s = true) :
    readSimpleValue t (s ++ 13 :: 10 :: rest) =
      ⟨.mk t 0 (some s) .nil true false, s.length + 2, rest, none⟩ := by
  unfold readSimpleValue
  rw [readLine_encode s rest h]

theorem readIntegerValue_encode (i : Int) (rest : List Nat) (h1 : -(2 ^ 63) ≤ i)
    (h2 : i < 2 ^ 63) :
    readIntegerValue (intRepr i ++ 13 :: 10 :: rest) =
      ⟨.mk 58 i none .nil true false, (intRepr i).length + 2, rest, none⟩ := by
  unfold readIntegerValue
  rw [readInt_intRepr i rest h1 h2]

theorem readInt_neg1 (rest : List Nat) :
    readInt (45 :: 49 :: 13 :: 10 :: rest) = ⟨-1, 4, rest, none⟩ := rfl

theorem readBulkValue_null (rest : List Nat) :
    readBulkValue (45 :: 49 :: 13 :: 10 :: rest) =
      ⟨.mk 36 0 none .nil true true, 4, rest, none⟩ := rfl

theorem readBulkValue_encode (b rest : List Nat) (hlen : b.length ≤ 512 * 1024 * 1024) :
    readBulkValue (natRepr b.length ++ 13 :: 10 :: (b ++ 13 :: 10 :: rest)) =
      ⟨.mk 36 0 (some b) .nil true false, (natRepr b.length).length + 2 + (b.length + 2),
        rest, none⟩ := by
  unfold readBulkValue
  rw [readInt_natRepr b.length (b ++ 13 :: 10 :: rest) (by omega)]
  dsimp only
  rw [if_neg (by omega : ¬((b.length : Nat) : Int) < 0),
    if_neg (by omega : ¬((b.length : Nat) : Int) > 512 * 1024 * 1024)]
  unfold readBytes
  rw [if_neg (by omega : ¬((b.length : Nat) : Int) + 2 < 0)]
  rw [show (((b.length : Nat) : Int) + 2).toNat = b.length + 2 from by omega]
  rw [if_neg (by simp [List.length_append] : ¬(b ++ 13 :: 10 :: rest).length < b.length + 2)]
  dsimp only
  have hsplit : b ++ 13 :: 10 :: rest = (b ++ [13, 10]) ++ rest := by simp
  have ht : (b ++ 13 :: 10 :: rest).take (b.length + 2) = b ++ [13, 10] := by
    rw [hsplit, show b.length + 2 = (b ++ [13, 10]).length from by simp]
    exact List.take_left _ _
  have hd : (b ++ 13 :: 10 :: rest).drop (b.length + 2) = rest := by
    rw [hsplit, show b.length + 2 = (b ++ [13, 10]).length from by simp]
    exact List.drop_left _ _
  rw [ht, hd]
  rw [show ((b.length : Nat) : Int).toNat = b.length from by omega]
  have hc1 : (b ++ [13, 10]).getD b.length 0 = 13 := by
    simp [List.getD_eq_getElem?_getD, List.getElem?_append_right, List.getElem_append_right]
  have hc2 : (b ++ [13, 10]).getD (b.length + 1) 0 = 10 := by
    simp [List.getD_eq_getElem?_getD, List.getElem?_append_right, List.getElem_append_right]
  rw [if_pos (And.intro hc1 hc2)]
  rw [List.take_left b [13, 10]]

theorem finishRV_none (v : Value) (t : Bool) (n : Nat) (r : List Nat) :
    finishRV v t n r none = ⟨v, t, n, r, none⟩ := rfl

/-- One step of `readValue` on a recognised non-`*` leading byte, when the
telnet branch is excluded (plain mode, or a child read). -/
theorem readValue_step (f : Nat) (mb child : Bool) (c : Nat) (input : List Nat)
    (hstar : ¬(c = 42)) (htel : mb = true → child = true) :
    readValue (f + 1) mb child (c :: input) =
      (if c = 45 ∨ c = 43 then
        finishRV (readSimpleValue c input).out false ((readSimpleValue c input).n + 1)
          (readSimpleValue c input).rest (readSimpleValue c input).err
      else if c = 58 then
        finishRV (readIntegerValue input).out false ((readIntegerValue input).n + 1)
          (readIntegerValue input).rest (readIntegerValue input).err
      else if c = 36 then
        finishRV (readBulkValue input).out false ((readBulkValue input).n + 1)
          (readBulkValue input).rest (readBulkValue input).err
      else if mb ∧ child then ⟨nullValue, false, 1, input, some (.protocol (expectedMsg c))⟩
      else if child then ⟨nullValue, false, 1, input, some (.protocol "unknown first byte")⟩
      else
        finishRV (readTelnetMultiBulk (c :: input)).out true
          ((readTelnetMultiBulk (c :: input)).n + 1) (readTelnetMultiBulk (c :: input)).rest
          (readTelnetMultiBulk (c :: input)).err) := by
  simp only [readValue]
  rw [if_neg hstar]
  rcases Bool.eq_false_or_eq_true child with hch | hch
  · subst hch
    rw [if_neg (by simp : ¬(mb = true ∧ (true : Bool) = false))]
  · have hmb : mb = false := by
      rcases Bool.eq_false_or_eq_true mb with h | h
      · rw [htel h] at hch
        exact absurd hch (by simp)
      · exact h
    subst hch
    subst hmb
    rw [if_neg (by simp : ¬((false : Bool) = true ∧ (false : Bool) = false))]

/-- One step of `readValue` on a `*` leading byte. -/
theorem readValue_star (f : Nat) (mb child : Bool) (input : List Nat) :
    readValue (f + 1) mb child (42 :: input) =
      (let r := readArrayValueF (readValue f mb true) mb input
       finishRV r.out false (r.n + 1) r.rest r.err) := by
  simp only [readValue]
  simp

theorem readArrayValueF_null (rv : List Nat → RVal) (mb : Bool) (rest : List Nat) :
    readArrayValueF rv mb (45 :: 49 :: 13 :: 10 :: rest) =
      ⟨.mk 42 0 none .nil true true, 4, rest, none⟩ := rfl

theorem readArrayValueF_ok (rv : List Nat → RVal) (mb : Bool) (k : Nat) (tail : List Nat)
    (vl : ValueList) (n2 : Nat) (rest2 : List Nat)
    (hk : k ≤ 1024 * 1024)
    (helems : readArrayElemsF rv k tail = ⟨vl, n2, rest2, none⟩) :
    readArrayValueF rv mb (natRepr k ++ 13 :: 10 :: tail) =
      ⟨.mk 42 0 none vl false false, (natRepr k).length + 2 + n2, rest2, none⟩ := by
  unfold readArrayValueF
  rw [readInt_natRepr k tail (by omega)]
  dsimp only
  rw [if_neg (by simp; omega : ¬(¬(none : Option RErr) = none ∨ ((k : Nat) : Int) > 1024 * 1024))]
  rw [if_neg (by omega : ¬((k : Nat) : Int) < 0)]
  rw [show ((k : Nat) : Int).toNat = k from by omega]
  rw [helems]

theorem toValueList_length : ∀ (es : MsgList),
    ValueList.length (toValueList es) = MsgList.length es
  | .nil => rfl
  | .cons hd tl => by
    simp only [toValueList, ValueList.length, MsgList.length]
    rw [toValueList_length tl]
termination_by structural es => es

mutual

theorem readValue_encode : ∀ (m : Msg) (fuel : Nat) (mb child : Bool) (rest : List Nat),
    validB m = true → req m ≤ fuel →
    (mb = true → child = true ∨ isStar m = true) →
    readValue fuel mb child (encode m ++ rest) =
      ⟨toValue m, false, (encode m).length, rest, none⟩
  | .simple s => by
    intro fuel mb child rest hv hr hcond
    obtain ⟨f, rfl⟩ : ∃ f, fuel = f + 1 := ⟨fuel - 1, by simp [req] at hr; omega⟩
    have hs : noCRLFB s = true := by
      simp only [validB, Bool.and_eq_true] at hv
      exact hv.1
    have htel : mb = true → child = true := by
      intro hmb
      rcases hcond hmb with h | h
      · exact h
      · simp [isStar] at h
    rw [show encode (Msg.simple s) ++ rest = 43 :: (s ++ 13 :: 10 :: rest) from by simp [encode]]
    rw [readValue_step f mb child 43 _ (by norm_num) htel]
    rw [if_pos (by norm_num : (43 : Nat) = 45 ∨ (43 : Nat) = 43)]
    rw [readSimpleValue_encode 43 s rest hs]
    rw [finishRV_none]
    simp [encode, toValue]
    try omega
  | .error s => by
    intro fuel mb child rest hv hr hcond
    obtain ⟨f, rfl⟩ : ∃ f, fuel = f + 1 := ⟨fuel - 1, by simp [req] at hr; omega⟩
    have hs : noCRLFB s = true := by
      simp only [validB, Bool.and_eq_true] at hv
      exact hv.1
    have htel : mb = true → child = true := by
      intro hmb
      rcases hcond hmb with h | h
      · exact h
      · simp [isStar] at h
    rw [show encode (Msg.error s) ++ rest = 45 :: (s ++ 13 :: 10 :: rest) from by simp [encode]]
    rw [readValue_step f mb child 45 _ (by norm_num) htel]
    rw [if_pos (by norm_num : (45 : Nat) = 45 ∨ (45 : Nat) = 43)]
    rw [readSimpleValue_encode 45 s rest hs]
    rw [finishRV_none]
    simp [encode, toValue]
    try omega
  | .int i => by
    intro fuel mb child rest hv hr hcond
    obtain ⟨f, rfl⟩ : ∃ f, fuel = f + 1 := ⟨fuel - 1, by simp [req] at hr; omega⟩
    have hi : -(2 ^ 63) ≤ i ∧ i < 2 ^ 63 := by
      simp only [validB, Bool.and_eq_true, decide_eq_true_eq] at hv
      exact hv
    have htel : mb = true → child = true := by
      intro hmb
      rcases hcond hmb with h | h
      · exact h
      · simp [isStar] at h
    rw [show encode (Msg.int i) ++ rest = 58 :: (intRepr i ++ 13 :: 10 :: rest) from by
      simp [encode]]
    rw [readValue_step f mb child 58 _ (by norm_num) htel]
    rw [if_neg (by norm_num : ¬((58 : Nat) = 45 ∨ (58 : Nat) = 43)), if_pos rfl]
    rw [readIntegerValue_encode i rest hi.1 hi.2]
    rw [finishRV_none]
    simp [encode, toValue]
    try omega
  | .bulk b => by
    intro fuel mb child rest hv hr hcond
    obtain ⟨f, rfl⟩ : ∃ f, fuel = f + 1 := ⟨fuel - 1, by simp [req] at hr; omega⟩
    have hb : b.length ≤ 512 * 1024 * 1024 := by
      simp only [validB, Bool.and_eq_true, decide_eq_true_eq] at hv
      exact hv.1
    have htel : mb = true → child = true := by
      intro hmb
      rcases hcond hmb with h | h
      · exact h
      · simp [isStar] at h
    rw [show encode (Msg.bulk b) ++ rest =
      36 :: (natRepr b.length ++ 13 :: 10 :: (b ++ 13 :: 10 :: rest)) from by simp [encode]]
    rw [readValue_step f mb child 36 _ (by norm_num) htel]
    rw [if_neg (by norm_num : ¬((36 : Nat) = 45 ∨ (36 : Nat) = 43)),
      if_neg (by norm_num : ¬(36 : Nat) = 58), if_pos rfl]
    rw [readBulkValue_encode b rest hb]
    rw [finishRV_none]
    simp [encode, toValue]
    try omega
  | .nullBulk => by
    intro fuel mb child rest hv hr hcond
    obtain ⟨f, rfl⟩ : ∃ f, fuel = f + 1 := ⟨fuel - 1, by simp [req] at hr; omega⟩
    have htel : mb = true → child = true := by
      intro hmb
      rcases hcond hmb with h | h
      · exact h
      · simp [isStar] at h
    rw [show encode Msg.nullBulk ++ rest = 36 :: (45 :: 49 :: 13 :: 10 :: rest) from by
      simp [encode]]
    rw [readValue_step f mb child 36 _ (by norm_num) htel]
    rw [if_neg (by norm_num : ¬((36 : Nat) = 45 ∨ (36 : Nat) = 43)),
      if_neg (by norm_num : ¬(36 : Nat) = 58), if_pos rfl]
    rw [readBulkValue_null rest]
    rw [finishRV_none]
    simp [encode, toValue]
  | .array es => by
    intro fuel mb child rest hv hr hcond
    obtain ⟨f, rfl⟩ : ∃ f, fuel = f + 1 := ⟨fuel - 1, by simp [req] at hr; omega⟩
    have hk : MsgList.length es ≤ 1024 * 1024 := by
      simp only [validB, Bool.and_eq_true, decide_eq_true_eq] at hv
      exact hv.1
    have hvl : validListB es = true := by
      simp only [validB, Bool.and_eq_true, decide_eq_true_eq] at hv
      exact hv.2
    have hf : reqList es ≤ f := by
      simp [req] at hr
      omega
    have helems := readArrayElems_encode es f mb rest hvl hf
    rw [show encode (Msg.array es) ++ rest =
      42 :: (natRepr (MsgList.length es) ++ 13 :: 10 :: (encodeList es ++ rest)) from by
      simp [encode]]
    rw [readValue_star]
    dsimp only
    rw [readArrayValueF_ok (readValue f mb true) mb (MsgList.length es) (encodeList es ++ rest)
      (toValueList es) (encodeList es).length rest hk helems]
    rw [finishRV_none]
    simp [encode, toValue]
    try omega
  | .nullArray => by
    intro fuel mb child rest hv hr hcond
    obtain ⟨f, rfl⟩ : ∃ f, fuel = f + 1 := ⟨fuel - 1, by simp [req] at hr; omega⟩
    rw [show encode Msg.nullArray ++ rest = 42 :: (45 :: 49 :: 13 :: 10 :: rest) from by
      simp [encode]]
    rw [readValue_star]
    dsimp only
    rw [readArrayValueF_null]
    rw [finishRV_none]
    simp [encode, toValue]

theorem readArrayElems_encode : ∀ (es : MsgList) (fuel : Nat) (mb : Bool) (rest : List Nat),
    validListB es = true → reqList es ≤ fuel →
    readArrayElemsF (readValue fuel mb true) (MsgList.length es) (encodeList es ++ rest) =
      ⟨toValueList es, (encodeList es).length, rest, none⟩
  | .nil => by
    intro fuel mb rest _ _
    simp [MsgList.length, encodeList, readArrayElemsF, toValueList]
  | .cons hd tl => by
    intro fuel mb rest hv hf
    have hvh : validB hd = true := by
      simp only [validListB, Bool.and_eq_true] at hv
      exact hv.1
    have hvt : validListB tl = true := by
      simp only [validListB, Bool.and_eq_true] at hv
      exact hv.2
    have hfh : req hd ≤ fuel := by
      simp only [reqList] at hf
      omega
    have hft : reqList tl ≤ fuel := by
      simp only [reqList] at hf
      omega
    have hhd := readValue_encode hd fuel mb true (encodeList tl ++ rest) hvh hfh
      (fun _ => Or.inl rfl)
    have htl := readArrayElems_encode tl fuel mb rest hvt hft
    rw [show encodeList (MsgList.cons hd tl) ++ rest =
      encode hd ++ (encodeList tl ++ rest) from by simp [encodeList]]
    rw [show MsgList.length (MsgList.cons hd tl) = MsgList.length tl + 1 from rfl]
    simp only [readArrayElemsF]
    rw [hhd]
    dsimp only
    rw [htl]
    dsimp only
    simp [encodeList, toValueList]

end

theorem intRepr_natCast (n : Nat) : intRepr ((n : Nat) : Int) = natRepr n := by
  unfold intRepr
  rw [if_neg (by omega : ¬((n : Nat) : Int) < 0)]
  rw [show ((n : Nat) : Int).toNat = n from by omega]

mutual

theorem marshal_toValue : ∀ (m : Msg), marshalAnyRESP (toValue m) = .ok (encode m)
  | .simple s => by
    simp [toValue, marshalAnyRESP, marshalSimpleRESP, strD, encode]
  | .error s => by
    simp [toValue, marshalAnyRESP, marshalSimpleRESP, strD, encode]
  | .int i => by
    simp [toValue, marshalAnyRESP, marshalSimpleRESP, encode]
  | .bulk b => by
    simp [toValue, marshalAnyRESP, marshalBulkRESP, strD, encode, Value.null, Value.str,
      intRepr_natCast]
  | .nullBulk => by
    simp [toValue, marshalAnyRESP, marshalBulkRESP, encode, Value.null]
  | .array es => by
    have hitems := marshalItems_toValueList es
    simp only [toValue, marshalAnyRESP, Value.null, Value.array]
    rw [hitems]
    simp [toValueList_length, intRepr_natCast, encode]
  | .nullArray => by
    simp [toValue, marshalAnyRESP, encode, Value.null, Value.array]

theorem marshalItems_toValueList : ∀ (es : MsgList),
    marshalArrayItems (toValueList es) = .ok (encodeList es)
  | .nil => rfl
  | .cons hd tl => by
    have h1 := marshal_toValue hd
    have h2 := marshalItems_toValueList tl
    simp only [toValueList, marshalArrayItems]
    rw [h1, h2]
    simp [encodeList]

end

/-- `req` is at least 1 on every message. -/
theorem req_pos : ∀ (m : Msg), 1 ≤ req m := by
  intro m
  cases m <;> simp [req]

/-- `reqList` is at least 1 on every message list. -/
theorem reqList_pos : ∀ (es : MsgList), 1 ≤ reqList es := by
  intro es
  cases es with
  | nil => simp [reqList]
  | cons hd tl => simp [reqList]; left; exact req_pos hd

/-- `noCRLFB` holds on any prefix. -/
theorem noCRLFB_prefix : ∀ (p t : List Nat), noCRLFB (p ++ t) = true → noCRLFB p = true
  | [], _, _ => rfl
  | [_], _, _ => rfl
  | a :: b :: r, t, h => by
    simp only [List.cons_append, noCRLFB, Bool.and_eq_true] at h ⊢
    exact ⟨h.1, noCRLFB_prefix (b :: r) t (by simpa using h.2)⟩

/-- `noCRLFB` survives appending a lone CR. -/
theorem noCRLFB_concat13 : ∀ (s : List Nat), noCRLFB s = true → noCRLFB (s ++ [13]) = true
  | [], _ => rfl
  | [a], _ => by simp [noCRLFB]
  | a :: b :: r, h => by
    simp only [noCRLFB, Bool.and_eq_true] at h
    simp only [List.cons_append, noCRLFB, Bool.and_eq_true]
    exact ⟨h.1, by simpa using noCRLFB_concat13 (b :: r) h.2⟩

/-- A proper prefix is a prefix of `dropLast`. -/
theorem isPrefix_proper_dropLast (p l : List Nat) (hp : p <+: l) (hne : p ≠ l) :
    p <+: l.dropLast := by
  obtain ⟨t, ht⟩ := hp
  rcases List.eq_nil_or_concat t with rfl | ⟨t2, c, rfl⟩
  · exact absurd (by simpa using ht) hne
  · rw [List.concat_eq_append] at ht
    rw [← ht, show p ++ (t2 ++ [c]) = (p ++ t2) ++ [c] from by simp, List.dropLast_concat]
    exact ⟨t2, rfl⟩

/-- A prefix of `A ++ B` is a prefix of `A` or extends `A` by a prefix of
`B`. -/
theorem prefix_split (p A B : List Nat) (h : p <+: A ++ B) :
    p <+: A ∨ ∃ q, p = A ++ q ∧ q <+: B := by
  rcases List.prefix_or_prefix_of_prefix h (List.prefix_append A B) with h1 | h1
  · exact Or.inl h1
  · right
    obtain ⟨q, rfl⟩ := h1
    refine ⟨q, rfl, ?_⟩
    obtain ⟨t, ht⟩ := h
    rw [List.append_assoc] at ht
    exact ⟨t, List.append_cancel_left ht⟩

/-- `dropLast` of a CRLF-terminated line keeps the CR. -/
theorem dropLast_crlf (s : List Nat) : (s ++ [13, 10]).dropLast = s ++ [13] := by
  rw [List.dropLast_append_cons]
  exact rfl

/-- `finishRV` turns both end-of-input errors into `unexpectedEOF`. -/
theorem finishRV_errOf (v : Value) (tel : Bool) (n : Nat) (rest : List Nat) (e : Option RErr)
    (h : e = some RErr.eof ∨ e = some RErr.unexpectedEOF) :
    (finishRV v tel n rest e).err = some RErr.unexpectedEOF := by
  rcases h with rfl | rfl <;> rfl

/-- The `readLine` scan hits end of input when no CRLF pair occurs. -/
theorem readLineLoop_noCRLF : ∀ (s full : List Nat) (lc n : Nat),
    noCRLFB (lc :: s) = true → readLineLoop full lc n s = ⟨[], 0, full, some RErr.eof⟩
  | [], _, _, _, _ => rfl
  | c :: rest, full, lc, n, h => by
    have h12 : noCRLFB (lc :: c :: rest) = true := h
    simp only [noCRLFB, Bool.and_eq_true, Bool.not_eq_eq_eq_not, Bool.not_true,
      decide_eq_false_iff_not] at h12
    simp only [readLineLoop]
    rw [if_neg (by tauto : ¬(c = 10 ∧ lc = 13))]
    exact readLineLoop_noCRLF rest full c (n + 1) h12.2

/-- `readLine` on a proper prefix of a CRLF-terminated line reports
`io.EOF` and commits nothing. -/
theorem readLine_prefixEof (s p : List Nat) (h : noCRLFB s = true)
    (hp : p <+: s ++ [13, 10]) (hne : p ≠ s ++ [13, 10]) :
    readLine p = ⟨[], 0, p, some RErr.eof⟩ := by
  have hp2 : p <+: s ++ [13] := by
    have h2 := isPrefix_proper_dropLast p _ hp hne
    rwa [dropLast_crlf] at h2
  have hno : noCRLFB p = true := by
    obtain ⟨t, ht⟩ := hp2
    exact noCRLFB_prefix p t (ht ▸ noCRLFB_concat13 s h)
  have h0 : noCRLFB (0 :: p) = true := by
    cases p with
    | nil => rfl
    | cons c r =>
      simp only [noCRLFB, Bool.and_eq_true]
      exact ⟨by simp, hno⟩
  unfold readLine
  exact readLineLoop_noCRLF p p 0 0 h0

/-- The `ParseUint` digit loop computes the decimal value when it fits in
`uint64`. -/
theorem parseUint64Loop_run :
    ∀ (ds : List Nat) (a : Nat), digitsOkB ds = true →
      digitsToNat a ds ≤ 18446744073709551615 →
      parseUint64Loop a ds = (digitsToNat a ds, false, false)
  | [], a, _, _ => rfl
  | c :: rest, a, hok, hle => by
    have hc : 48 ≤ c ∧ c ≤ 57 := by
      have := hok
      simp [digitsOkB] at this
      exact ⟨this.1.1, this.1.2⟩
    have hok2 : digitsOkB rest = true := by
      have := hok
      simp [digitsOkB] at this ⊢
      exact this.2
    have hstep : digitsToNat a (c :: rest) = digitsToNat (a * 10 + (c - 48)) rest := rfl
    have hge : a * 10 + (c - 48) ≤ digitsToNat a (c :: rest) := by
      rw [hstep]
      exact digitsToNat_le rest (a * 10 + (c - 48))
    simp only [parseUint64Loop]
    rw [if_neg (by omega : ¬(c < 48 ∨ 57 < c)),
      if_neg (by omega : ¬1844674407370955162 ≤ a),
      if_neg (by omega : ¬a * 10 + (c - 48) > 18446744073709551615),
      parseUint64Loop_run rest (a * 10 + (c - 48)) hok2 (by omega), hstep]

/-- `ParseInt` (error discarded) on an unsigned digit string that fits in
`uint64`: the value, clamped to `int64` max on overflow. -/
theorem goParseInt64_unsigned (c : Nat) (rest : List Nat)
    (hok : digitsOkB (c :: rest) = true)
    (hle : digitsToNat 0 (c :: rest) ≤ 18446744073709551615) :
    goParseInt64 (c :: rest) =
      if 2 ^ 63 ≤ digitsToNat 0 (c :: rest) then 2 ^ 63 - 1
      else (digitsToNat 0 (c :: rest) : Int) := by
  have hc : 48 ≤ c ∧ c ≤ 57 := by
    have := hok
    simp [digitsOkB] at this
    exact ⟨this.1.1, this.1.2⟩
  simp only [goParseInt64]
  rw [if_neg (by omega : ¬c = 43), if_neg (by omega : ¬c = 45)]
  simp only [parseUint64Loop_run (c :: rest) 0 hok hle]
  by_cases h63 : 2 ^ 63 ≤ digitsToNat 0 (c :: rest)
  · simp [h63]
  · simp [h63]

/-- `ParseInt` (error discarded) on a minus sign followed by digits whose
value is at most `2 ^ 63`: the negated value. -/
theorem goParseInt64_neg (c : Nat) (rest : List Nat)
    (hok : digitsOkB (c :: rest) = true)
    (hle : digitsToNat 0 (c :: rest) ≤ 2 ^ 63) :
    goParseInt64 (45 :: c :: rest) = -(digitsToNat 0 (c :: rest) : Int) := by
  have hrun := parseUint64Loop_run (c :: rest) 0 hok (by omega)
  have hle2 : digitsToNat (c - 48) rest ≤ 9223372036854775808 := by
    have h := hle
    rw [show digitsToNat 0 (c :: rest) = digitsToNat (c - 48) rest by simp] at h
    norm_num at h
    exact h
  simp only [goParseInt64]
  norm_num
  rw [hrun]
  norm_num
  intro h
  omega

/-- The `readInt` digit loop hits end of input on any prefix of
digits-plus-CR. -/
theorem readIntLoop_prefixEof : ∀ (p ds : List Nat) (neg length : Int) (n : Nat),
    digitsOkB ds = true → p <+: ds ++ [13] →
    (readIntLoop neg length n p).err = some RErr.eof
  | [], _, _, _, _, _, _ => rfl
  | c :: p2, ds, neg, length, n, hds, hp => by
    cases ds with
    | nil =>
      obtain ⟨hc, hp2⟩ := List.cons_prefix_cons.mp hp
      subst hc
      have hp0 : p2 = [] := List.prefix_nil.mp hp2
      subst hp0
      rfl
    | cons d ds2 =>
      rw [List.cons_append] at hp
      obtain ⟨hc, hp2⟩ := List.cons_prefix_cons.mp hp
      subst hc
      have hd : (48 ≤ c ∧ c ≤ 57) ∧ digitsOkB ds2 = true := by
        simp only [digitsOkB, List.all_cons, Bool.and_eq_true, decide_eq_true_eq] at hds
        exact hds
      simp only [readIntLoop]
      rw [if_neg (by omega : ¬c = 13), if_pos hd.1]
      exact readIntLoop_prefixEof p2 ds2 neg _ (n + 1) hd.2 hp2

/-- `readInt` hits end of input on any prefix of an unsigned
digits-plus-CR header. -/
theorem readInt_prefix_digits (ds p : List Nat) (hds : digitsOkB ds = true)
    (hp : p <+: ds ++ [13]) : (readInt p).err = some RErr.eof := by
  cases p with
  | nil => rfl
  | cons c p2 =>
    have hc45 : ¬c = 45 := by
      cases ds with
      | nil =>
        obtain ⟨hc, _⟩ := List.cons_prefix_cons.mp hp
        omega
      | cons d ds2 =>
        rw [List.cons_append] at hp
        obtain ⟨hc, _⟩ := List.cons_prefix_cons.mp hp
        have hd : 48 ≤ d ∧ d ≤ 57 := by
          simp only [digitsOkB, List.all_cons, Bool.and_eq_true, decide_eq_true_eq] at hds
          exact hds.1
        omega
    simp only [readInt]
    rw [if_neg hc45]
    exact readIntLoop_prefixEof (c :: p2) ds 1 0 0 hds hp

/-- `readInt` hits end of input on any prefix of a minus-sign header. -/
theorem readInt_prefix_neg (ds p : List Nat) (hds : digitsOkB ds = true)
    (hp : p <+: 45 :: (ds ++ [13])) : (readInt p).err = some RErr.eof := by
  cases p with
  | nil => rfl
  | cons c p2 =>
    obtain ⟨hc, hp2⟩ := List.cons_prefix_cons.mp hp
    subst hc
    simp only [readInt]
    rw [if_pos trivial]
    cases p2 with
    | nil => rfl
    | cons c2 r2 => exact readIntLoop_prefixEof (c2 :: r2) ds (-1) 0 1 hds hp2

/-- `readInt` hits end of input on any prefix of a `FormatInt`
representation plus CR. -/
theorem readInt_prefix_intRepr (i : Int) (p : List Nat) (hp : p <+: intRepr i ++ [13]) :
    (readInt p).err = some RErr.eof := by
  by_cases hneg : i < 0
  · rw [show intRepr i = 45 :: natRepr (-i).toNat from by simp [intRepr, hneg],
      List.cons_append] at hp
    exact readInt_prefix_neg (natRepr (-i).toNat) p (natRepr_ok _) hp
  · rw [show intRepr i = natRepr i.toNat from by simp [intRepr, hneg]] at hp
    exact readInt_prefix_digits (natRepr i.toNat) p (natRepr_ok _) hp

/-- `readIntegerValue` propagates an end-of-input error from `readInt`. -/
theorem readIntegerValue_errOf (input : List Nat) (e : RErr)
    (he : e = RErr.eof ∨ e = RErr.unexpectedEOF)
    (hR : (readInt input).err = some e) :
    (readIntegerValue input).err = some e := by
  rcases hRR : readInt input with ⟨o, nn, rr, ee⟩
  rw [hRR] at hR
  have hee : ee = some e := hR
  subst hee
  unfold readIntegerValue
  rw [hRR]
  rcases he with rfl | rfl <;> rfl

/-- `readBulkValue` propagates an end-of-input error from its length
header. -/
theorem readBulkValue_errOf (input : List Nat) (e : RErr)
    (he : e = RErr.eof ∨ e = RErr.unexpectedEOF)
    (hR : (readInt input).err = some e) :
    (readBulkValue input).err = some e := by
  rcases hRR : readInt input with ⟨o, nn, rr, ee⟩
  rw [hRR] at hR
  have hee : ee = some e := hR
  subst hee
  unfold readBulkValue
  rw [hRR]
  rcases he with rfl | rfl <;> rfl

/-- `readArrayValue` propagates an end-of-input error from its count
header. -/
theorem readArrayValueF_errOf (rv : List Nat → RVal) (mb : Bool) (input : List Nat) (e : RErr)
    (he : e = RErr.eof ∨ e = RErr.unexpectedEOF)
    (hR : (readInt input).err = some e) :
    (readArrayValueF rv mb input).err = some e := by
  rcases hRR : readInt input with ⟨o, nn, rr, ee⟩
  rw [hRR] at hR
  have hee : ee = some e := hR
  subst hee
  unfold readArrayValueF
  rw [hRR]
  rcases he with rfl | rfl <;> rfl

/-- `readArrayValue` propagates an end-of-input error from its element
loop. -/
theorem readArrayValueF_elems (rv : List Nat → RVal) (mb : Bool) (k : Nat) (tail : List Nat)
    (hk : k ≤ 1024 * 1024)
    (hE : (readArrayElemsF rv k tail).err = some RErr.eof ∨
      (readArrayElemsF rv k tail).err = some RErr.unexpectedEOF) :
    (readArrayValueF rv mb (natRepr k ++ 13 :: 10 :: tail)).err = some RErr.eof ∨
    (readArrayValueF rv mb (natRepr k ++ 13 :: 10 :: tail)).err = some RErr.unexpectedEOF := by
  rcases hEE : readArrayElemsF rv k tail with ⟨vl, n2, r2, e2⟩
  rw [hEE] at hE
  have he2 : e2 = some RErr.eof ∨ e2 = some RErr.unexpectedEOF := hE
  unfold readArrayValueF
  rw [readInt_natRepr k tail (by omega)]
  dsimp only
  rw [if_neg (by simp; omega : ¬(¬(none : Option RErr) = none ∨ ((k : Nat) : Int) > 1024 * 1024))]
  rw [if_neg (by omega : ¬((k : Nat) : Int) < 0)]
  rw [show ((k : Nat) : Int).toNat = k from by omega, hEE]
  rcases he2 with rfl | rfl
  · left
    rfl
  · right
    rfl

/-- The telnet line scan hits end of input on a quote-free, LF-free
line fragment. -/
theorem readTelnetLoop_safe : ∀ (p : List Nat) (vals : List Value) (bl : Option (List Nat))
    (n : Nat), telnetSafe p = true →
    (readTelnetLoop vals bl false false n p).err = some RErr.eof
  | [], _, _, _, _ => rfl
  | c :: r, vals, bl, n, h => by
    have hc : (c ≠ 10 ∧ c ≠ 34 ∧ c < 256) ∧ telnetSafe r = true := by
      simp only [telnetSafe, List.all_cons, Bool.and_eq_true, decide_eq_true_eq] at h ⊢
      exact h
    simp only [readTelnetLoop]
    rw [if_neg hc.1.1, if_neg (by simp : ¬((false : Bool) = true ∧ ¬c = 32))]
    by_cases hc32 : c = 32
    · rw [if_pos hc32, if_neg (by simp : ¬(false : Bool) = true)]
      exact readTelnetLoop_safe r _ none (n + 1) hc.2
    · rw [if_neg hc32, if_neg hc.1.2.1]
      exact readTelnetLoop_safe r vals (blineApp bl c) (n + 1) hc.2

/-- `readBulkValue` hits end of input when fewer than `L + 2` payload
bytes follow a complete length header. -/
theorem readBulkValue_short (L : Nat) (q : List Nat) (hL : L ≤ 512 * 1024 * 1024)
    (hqlen : q.length < L + 2) :
    (readBulkValue (natRepr L ++ 13 :: 10 :: q)).err = some RErr.eof := by
  unfold readBulkValue
  rw [readInt_natRepr L q (by omega)]
  dsimp only
  rw [if_neg (by omega : ¬((L : Nat) : Int) < 0),
    if_neg (by omega : ¬((L : Nat) : Int) > 512 * 1024 * 1024)]
  unfold readBytes
  rw [if_neg (by omega : ¬((L : Nat) : Int) + 2 < 0),
    if_pos (by omega : q.length < (((L : Nat) : Int) + 2).toNat)]

mutual

theorem readValue_prefixEof : ∀ (m : Msg) (fuel : Nat) (mb child : Bool) (p : List Nat),
    validB m = true → req m ≤ fuel →
    (mb = true → child = true ∨ isStar m = true) →
    p <+: encode m → p ≠ encode m → p ≠ [] →
    (readValue fuel mb child p).err = some RErr.unexpectedEOF
  | .simple s => by
    intro fuel mb child p hv hr hcond hp hne hp0
    obtain ⟨f, rfl⟩ : ∃ f, fuel = f + 1 := ⟨fuel - 1, by simp [req] at hr; omega⟩
    have hs : noCRLFB s = true := by
      simp only [validB, Bool.and_eq_true] at hv
      exact hv.1
    have htel : mb = true → child = true := by
      intro hmb
      rcases hcond hmb with h | h
      · exact h
      · simp [isStar] at h
    obtain ⟨c, p2, rfl⟩ : ∃ c p2, p = c :: p2 := by
      cases p with
      | nil => exact absurd rfl hp0
      | cons c p2 => exact ⟨c, p2, rfl⟩
    rw [show encode (Msg.simple s) = 43 :: (s ++ [13, 10]) from rfl] at hp hne
    obtain ⟨hc, hp2⟩ := List.cons_prefix_cons.mp hp
    subst hc
    have hne2 : p2 ≠ s ++ [13, 10] := by
      intro h
      exact hne (by rw [h])
    rw [readValue_step f mb child 43 _ (by norm_num) htel]
    rw [if_pos (by norm_num : (43 : Nat) = 45 ∨ (43 : Nat) = 43)]
    have hsv : readSimpleValue 43 p2 = ⟨nullValue, 0, p2, some RErr.eof⟩ := by
      unfold readSimpleValue
      rw [readLine_prefixEof s p2 hs hp2 hne2]
    rw [hsv]
    exact rfl
  | .error s => by
    intro fuel mb child p hv hr hcond hp hne hp0
    obtain ⟨f, rfl⟩ : ∃ f, fuel = f + 1 := ⟨fuel - 1, by simp [req] at hr; omega⟩
    have hs : noCRLFB s = true := by
      simp only [validB, Bool.and_eq_true] at hv
      exact hv.1
    have htel : mb = true → child = true := by
      intro hmb
      rcases hcond hmb with h | h
      · exact h
      · simp [isStar] at h
    obtain ⟨c, p2, rfl⟩ : ∃ c p2, p = c :: p2 := by
      cases p with
      | nil => exact absurd rfl hp0
      | cons c p2 => exact ⟨c, p2, rfl⟩
    rw [show encode (Msg.error s) = 45 :: (s ++ [13, 10]) from rfl] at hp hne
    obtain ⟨hc, hp2⟩ := List.cons_prefix_cons.mp hp
    subst hc
    have hne2 : p2 ≠ s ++ [13, 10] := by
      intro h
      exact hne (by rw [h])
    rw [readValue_step f mb child 45 _ (by norm_num) htel]
    rw [if_pos (by norm_num : (45 : Nat) = 45 ∨ (45 : Nat) = 43)]
    have hsv : readSimpleValue 45 p2 = ⟨nullValue, 0, p2, some RErr.eof⟩ := by
      unfold readSimpleValue
      rw [readLine_prefixEof s p2 hs hp2 hne2]
    rw [hsv]
    exact rfl
  | .int i => by
    intro fuel mb child p hv hr hcond hp hne hp0
    obtain ⟨f, rfl⟩ : ∃ f, fuel = f + 1 := ⟨fuel - 1, by simp [req] at hr; omega⟩
    have htel : mb = true → child = true := by
      intro hmb
      rcases hcond hmb with h | h
      · exact h
      · simp [isStar] at h
    obtain ⟨c, p2, rfl⟩ : ∃ c p2, p = c :: p2 := by
      cases p with
      | nil => exact absurd rfl hp0
      | cons c p2 => exact ⟨c, p2, rfl⟩
    rw [show encode (Msg.int i) = 58 :: (intRepr i ++ [13, 10]) from rfl] at hp hne
    obtain ⟨hc, hp2⟩ := List.cons_prefix_cons.mp hp
    subst hc
    have hne2 : p2 ≠ intRepr i ++ [13, 10] := by
      intro h
      exact hne (by rw [h])
    have hdrop : p2 <+: intRepr i ++ [13] := by
      have h2 := isPrefix_proper_dropLast p2 _ hp2 hne2
      rwa [dropLast_crlf] at h2
    rw [readValue_step f mb child 58 _ (by norm_num) htel]
    rw [if_neg (by norm_num : ¬((58 : Nat) = 45 ∨ (58 : Nat) = 43)), if_pos rfl]
    exact finishRV_errOf _ _ _ _ _
      (Or.inl (readIntegerValue_errOf p2 RErr.eof (Or.inl rfl) (readInt_prefix_intRepr i p2 hdrop)))
  | .bulk b => by
    intro fuel mb child p hv hr hcond hp hne hp0
    obtain ⟨f, rfl⟩ : ∃ f, fuel = f + 1 := ⟨fuel - 1, by simp [req] at hr; omega⟩
    have hb : b.length ≤ 512 * 1024 * 1024 := by
      simp only [validB, Bool.and_eq_true, decide_eq_true_eq] at hv
      exact hv.1
    have htel : mb = true → child = true := by
      intro hmb
      rcases hcond hmb with h | h
      · exact h
      · simp [isStar] at h
    obtain ⟨c, p2, rfl⟩ : ∃ c p2, p = c :: p2 := by
      cases p with
      | nil => exact absurd rfl hp0
      | cons c p2 => exact ⟨c, p2, rfl⟩
    rw [show encode (Msg.bulk b) =
      36 :: (natRepr b.length ++ [13, 10] ++ (b ++ [13, 10])) from rfl] at hp hne
    obtain ⟨hc, hp2⟩ := List.cons_prefix_cons.mp hp
    subst hc
    have hne2 : p2 ≠ natRepr b.length ++ [13, 10] ++ (b ++ [13, 10]) := by
      intro h
      exact hne (by rw [h])
    rw [readValue_step f mb child 36 _ (by norm_num) htel]
    rw [if_neg (by norm_num : ¬((36 : Nat) = 45 ∨ (36 : Nat) = 43)),
      if_neg (by norm_num : ¬(36 : Nat) = 58), if_pos rfl]
    refine finishRV_errOf _ _ _ _ _ ?_
    rcases prefix_split p2 (natRepr b.length ++ [13, 10]) (b ++ [13, 10]) hp2 with
      hsh | ⟨q, rfl, hq⟩
    · by_cases heq : p2 = natRepr b.length ++ [13, 10]
      · left
        subst heq
        rw [show natRepr b.length ++ [13, 10] =
          natRepr b.length ++ 13 :: 10 :: ([] : List Nat) from by simp]
        exact readBulkValue_short b.length [] hb (by simp)
      · left
        have hdrop : p2 <+: natRepr b.length ++ [13] := by
          have h2 := isPrefix_proper_dropLast p2 _ hsh heq
          rwa [dropLast_crlf] at h2
        exact readBulkValue_errOf p2 RErr.eof (Or.inl rfl)
          (readInt_prefix_digits (natRepr b.length) p2 (natRepr_ok _) hdrop)
    · left
      have hqne : q ≠ b ++ [13, 10] := by
        intro h
        exact hne2 (by rw [h])
      have hqlen : q.length < b.length + 2 := by
        have hle := hq.length_le
        simp only [List.length_append, List.length_cons, List.length_nil] at hle
        rcases Nat.lt_or_ge q.length (b.length + 2) with h | h
        · exact h
        · exact absurd (List.IsPrefix.eq_of_length hq (by simp; omega)) hqne
      rw [show natRepr b.length ++ [13, 10] ++ q = natRepr b.length ++ 13 :: 10 :: q from by simp]
      exact readBulkValue_short b.length q hb hqlen
  | .nullBulk => by
    intro fuel mb child p hv hr hcond hp hne hp0
    obtain ⟨f, rfl⟩ : ∃ f, fuel = f + 1 := ⟨fuel - 1, by simp [req] at hr; omega⟩
    have htel : mb = true → child = true := by
      intro hmb
      rcases hcond hmb with h | h
      · exact h
      · simp [isStar] at h
    obtain ⟨c, p2, rfl⟩ : ∃ c p2, p = c :: p2 := by
      cases p with
      | nil => exact absurd rfl hp0
      | cons c p2 => exact ⟨c, p2, rfl⟩
    rw [show encode Msg.nullBulk = 36 :: [45, 49, 13, 10] from rfl] at hp hne
    obtain ⟨hc, hp2⟩ := List.cons_prefix_cons.mp hp
    subst hc
    have hne2 : p2 ≠ [45, 49, 13, 10] := by
      intro h
      exact hne (by rw [h])
    have hdrop : p2 <+: [45, 49, 13] := by
      have h2 := isPrefix_proper_dropLast p2 _ hp2 hne2
      exact h2
    rw [readValue_step f mb child 36 _ (by norm_num) htel]
    rw [if_neg (by norm_num : ¬((36 : Nat) = 45 ∨ (36 : Nat) = 43)),
      if_neg (by norm_num : ¬(36 : Nat) = 58), if_pos rfl]
    exact finishRV_errOf _ _ _ _ _ (Or.inl (readBulkValue_errOf p2 RErr.eof (Or.inl rfl)
      (readInt_prefix_neg [49] p2 (by decide) hdrop)))
  | .array es => by
    intro fuel mb child p hv hr hcond hp hne hp0
    obtain ⟨f, rfl⟩ : ∃ f, fuel = f + 1 := ⟨fuel - 1, by simp [req] at hr; omega⟩
    have hk : MsgList.length es ≤ 1024 * 1024 := by
      simp only [validB, Bool.and_eq_true, decide_eq_true_eq] at hv
      exact hv.1
    have hvl : validListB es = true := by
      simp only [validB, Bool.and_eq_true, decide_eq_true_eq] at hv
      exact hv.2
    have hf2 : reqList es ≤ f := by
      simp [req] at hr
      omega
    obtain ⟨c, p2, rfl⟩ : ∃ c p2, p = c :: p2 := by
      cases p with
      | nil => exact absurd rfl hp0
      | cons c p2 => exact ⟨c, p2, rfl⟩
    rw [show encode (Msg.array es) =
      42 :: (natRepr (MsgList.length es) ++ [13, 10] ++ encodeList es) from rfl] at hp hne
    obtain ⟨hc, hp2⟩ := List.cons_prefix_cons.mp hp
    subst hc
    have hne2 : p2 ≠ natRepr (MsgList.length es) ++ [13, 10] ++ encodeList es := by
      intro h
      exact hne (by rw [h])
    rw [readValue_star]
    dsimp only
    refine finishRV_errOf _ _ _ _ _ ?_
    rcases prefix_split p2 (natRepr (MsgList.length es) ++ [13, 10]) (encodeList es) hp2 with
      hsh | ⟨q, rfl, hq⟩
    · by_cases heq : p2 = natRepr (MsgList.length es) ++ [13, 10]
      · subst heq
        have hesne : encodeList es ≠ [] := by
          intro h0
          exact hne2 (by rw [h0, List.append_nil])
        have hrec := readArrayElems_prefixEof es f mb [] hvl hf2 List.nil_prefix
          (fun h => hesne h.symm)
        rw [show natRepr (MsgList.length es) ++ [13, 10] =
          natRepr (MsgList.length es) ++ 13 :: 10 :: ([] : List Nat) from by simp]
        exact readArrayValueF_elems _ mb _ [] hk hrec
      · left
        have hdrop : p2 <+: natRepr (MsgList.length es) ++ [13] := by
          have h2 := isPrefix_proper_dropLast p2 _ hsh heq
          rwa [dropLast_crlf] at h2
        exact readArrayValueF_errOf _ mb p2 RErr.eof (Or.inl rfl)
          (readInt_prefix_digits (natRepr (MsgList.length es)) p2 (natRepr_ok _) hdrop)
    · have hqne : q ≠ encodeList es := by
        intro h
        exact hne2 (by rw [h])
      have hrec := readArrayElems_prefixEof es f mb q hvl hf2 hq hqne
      rw [show natRepr (MsgList.length es) ++ [13, 10] ++ q =
        natRepr (MsgList.length es) ++ 13 :: 10 :: q from by simp]
      exact readArrayValueF_elems _ mb _ q hk hrec
  | .nullArray => by
    intro fuel mb child p hv hr hcond hp hne hp0
    obtain ⟨f, rfl⟩ : ∃ f, fuel = f + 1 := ⟨fuel - 1, by simp [req] at hr; omega⟩
    obtain ⟨c, p2, rfl⟩ : ∃ c p2, p = c :: p2 := by
      cases p with
      | nil => exact absurd rfl hp0
      | cons c p2 => exact ⟨c, p2, rfl⟩
    rw [show encode Msg.nullArray = 42 :: [45, 49, 13, 10] from rfl] at hp hne
    obtain ⟨hc, hp2⟩ := List.cons_prefix_cons.mp hp
    subst hc
    have hne2 : p2 ≠ [45, 49, 13, 10] := by
      intro h
      exact hne (by rw [h])
    have hdrop : p2 <+: [45, 49, 13] := isPrefix_proper_dropLast p2 _ hp2 hne2
    rw [readValue_star]
    dsimp only
    exact finishRV_errOf _ _ _ _ _ (Or.inl (readArrayValueF_errOf _ mb p2 RErr.eof (Or.inl rfl)
      (readInt_prefix_neg [49] p2 (by decide) hdrop)))

theorem readArrayElems_prefixEof : ∀ (es : MsgList) (fuel : Nat) (mb : Bool) (q : List Nat),
    validListB es = true → reqList es ≤ fuel →
    q <+: encodeList es → q ≠ encodeList es →
    (readArrayElemsF (readValue fuel mb true) (MsgList.length es) q).err = some RErr.eof ∨
    (readArrayElemsF (readValue fuel mb true) (MsgList.length es) q).err =
      some RErr.unexpectedEOF
  | .nil => by
    intro fuel mb q _ _ hq hne
    rw [show encodeList MsgList.nil = ([] : List Nat) from rfl] at hq hne
    exact absurd (List.prefix_nil.mp hq) hne
  | .cons hd tl => by
    intro fuel mb q hv hf hq hne
    obtain ⟨f, rfl⟩ : ∃ f, fuel = f + 1 :=
      ⟨fuel - 1, by have := reqList_pos (MsgList.cons hd tl); omega⟩
    have hvh : validB hd = true ∧ validListB tl = true := by
      simp only [validListB, Bool.and_eq_true] at hv
      exact hv
    have hfh : req hd ≤ f + 1 ∧ reqList tl ≤ f + 1 := by
      simp only [reqList, max_le_iff] at hf
      exact hf
    rw [show encodeList (MsgList.cons hd tl) = encode hd ++ encodeList tl from rfl] at hq hne
    simp only [MsgList.length, readArrayElemsF]
    by_cases hq0 : q = []
    · subst hq0
      rw [show readValue (f + 1) mb true [] = ⟨nullValue, false, 0, [], some RErr.eof⟩ from rfl]
      left
      rfl
    · rcases prefix_split q (encode hd) (encodeList tl) hq with hsh | ⟨q2, rfl, hq2⟩
      · by_cases heq : q = encode hd
        · subst heq
          have hr := readValue_encode hd (f + 1) mb true [] hvh.1 hfh.1 (fun _ => Or.inl rfl)
          rw [List.append_nil] at hr
          rw [hr]
          dsimp only
          have htlne : encodeList tl ≠ [] := by
            intro h0
            exact hne (by rw [h0, List.append_nil])
          have hrec := readArrayElems_prefixEof tl (f + 1) mb [] hvh.2 hfh.2 List.nil_prefix
            (fun h => htlne h.symm)
          rcases hE : readArrayElemsF (readValue (f + 1) mb true) (MsgList.length tl) []
            with ⟨vl, n2, r2, e2⟩
          rw [hE] at hrec
          have he2 : e2 = some RErr.eof ∨ e2 = some RErr.unexpectedEOF := hrec
          rcases he2 with rfl | rfl
          · left
            rfl
          · right
            rfl
        · have hrr := readValue_prefixEof hd (f + 1) mb true q hvh.1 hfh.1 (fun _ => Or.inl rfl)
            hsh heq hq0
          rcases hr : readValue (f + 1) mb true q with ⟨v, tel, nn, rr, ee⟩
          rw [hr] at hrr
          have hee : ee = some RErr.unexpectedEOF := hrr
          subst hee
          right
          rfl
      · have hq2ne : q2 ≠ encodeList tl := by
          intro h
          exact hne (by rw [h])
        have hr := readValue_encode hd (f + 1) mb true q2 hvh.1 hfh.1 (fun _ => Or.inl rfl)
        rw [hr]
        dsimp only
        have hrec := readArrayElems_prefixEof tl (f + 1) mb q2 hvh.2 hfh.2 hq2 hq2ne
        rcases hE : readArrayElemsF (readValue (f + 1) mb true) (MsgList.length tl) q2
          with ⟨vl, n2, r2, e2⟩
        rw [hE] at hrec
        have he2 : e2 = some RErr.eof ∨ e2 = some RErr.unexpectedEOF := hrec
        rcases he2 with rfl | rfl
        · left
          rfl
        · right
          rfl

end

/-! ## Claims -/

/-- **C1** — Round-trip identity: for every syntactically valid wire message
of any of the five kinds (with arbitrary nesting), decoding it with
`ReadValue` succeeds consuming exactly its bytes, and `MarshalRESP` on the
resulting `Value` reproduces the original input bytes exactly. -/
theorem c1_roundtrip_identity (m : Msg) (fuel : Nat)
    (hv : validB m = true) (hf : req m ≤ fuel) :
    (readValue fuel false false (encode m)).err = none ∧
    (readValue fuel false false (encode m)).n = (encode m).length ∧
    (readValue fuel false false (encode m)).rest = [] ∧
    marshalAnyRESP (readValue fuel false false (encode m)).val = .ok (encode m) := by
  have h := readValue_encode m fuel false false [] hv hf (fun hmb => absurd hmb (by simp))
  rw [List.append_nil] at h
  rw [h]
  exact ⟨rfl, rfl, rfl, marshal_toValue m⟩

set_option maxRecDepth 10000 in
/-- Witness for **C1** at a concrete nested message. -/
theorem c1_roundtrip_identity_witness :
    validB c1msg = true ∧ req c1msg ≤ 3 ∧
    ((readValue 3 false false (encode c1msg)).err = none ∧
      (readValue 3 false false (encode c1msg)).n = (encode c1msg).length ∧
      (readValue 3 false false (encode c1msg)).rest = [] ∧
      marshalAnyRESP (readValue 3 false false (encode c1msg)).val = .ok (encode c1msg)) :=
  ⟨by decide, by decide, c1_roundtrip_identity c1msg 3 (by decide) (by decide)⟩

set_option maxRecDepth 10000 in
/-- **C2** — Length ceilings: a declared bulk length above 512 MiB draws the
`"invalid bulk length"` protocol error with none of the declared payload
present; but a declared array count above 1,048,576 is returned with a
`nil` error and the null `Value` — no protocol error — showing the claim's
error requirement fails on the array side. -/
theorem c2_length_ceilings :
    (readValue 2 false false (strBytes "$536870913\r\n")).err =
      some (.protocol "invalid bulk length") ∧
    (readValue 2 false false (strBytes "*1048577\r\n")).err = none ∧
    (readValue 2 false false (strBytes "*1048577\r\n")).val = nullValue ∧
    (readValue 2 false false (strBytes "*1048577\r\n")).rest = [] :=
  ⟨rfl, rfl, rfl, rfl⟩

/-- **C3** — `WriteValue` marshals and performs exactly one write of the
marshaled bytes, but returns `nil` even when the underlying write fails:
with a sink that reports `"sink failure"`, the recorded write happens and
the returned error is `none`, not the write error. -/
theorem c3_writevalue_swallows_error :
    WriteValue ⟨[], some "sink failure"⟩ (Value.mk 43 0 (some [79, 75]) .nil true false) =
      (⟨[[43, 79, 75, 13, 10]], some "sink failure"⟩, none) := rfl

/-- **C4 counterexample** — the inline/telnet fallback also fires for
`ReadValue` (plain mode, top level): `"PING\r\n"` decodes through the
telnet path into a synthetic array with no error, contradicting "the
fallback does not apply to other read entry points". -/
theorem c4_counterexample :
    (readValue 1 false false (strBytes "PING\r\n")).err = none ∧
    (readValue 1 false false (strBytes "PING\r\n")).telnet = true ∧
    (readValue 1 false false (strBytes "PING\r\n")).val =
      Value.mk 42 0 none
        (.cons (Value.mk 36 0 (some (strBytes "PING")) .nil true false) .nil) false false :=
  ⟨rfl, rfl, rfl⟩

/-- **C4 (amended)** — the telnet fallback fires at top level in
`ReadMultiBulk` for any leading byte other than `*`, and in `ReadValue`
for any unrecognized leading byte; in nested positions an unrecognized
leading byte is always a hard protocol error (multibulk: the
expected-`$` message; plain: `"unknown first byte"`). -/
theorem c4_telnet_fallback (fuel : Nat) (c : Nat) (rest : List Nat) :
    (c ≠ 42 →
      readValue (fuel + 1) true false (c :: rest) =
        finishRV (readTelnetMultiBulk (c :: rest)).out true
          ((readTelnetMultiBulk (c :: rest)).n + 1) (readTelnetMultiBulk (c :: rest)).rest
          (readTelnetMultiBulk (c :: rest)).err) ∧
    (c ≠ 42 → c ≠ 45 → c ≠ 43 → c ≠ 58 → c ≠ 36 →
      readValue (fuel + 1) false false (c :: rest) =
        finishRV (readTelnetMultiBulk (c :: rest)).out true
          ((readTelnetMultiBulk (c :: rest)).n + 1) (readTelnetMultiBulk (c :: rest)).rest
          (readTelnetMultiBulk (c :: rest)).err) ∧
    (c ≠ 42 → c ≠ 45 → c ≠ 43 → c ≠ 58 → c ≠ 36 →
      (readValue (fuel + 1) true true (c :: rest)).err = some (.protocol (expectedMsg c)) ∧
      (readValue (fuel + 1) false true (c :: rest)).err =
        some (.protocol "unknown first byte")) := by
  refine ⟨?_, ?_, ?_⟩
  · intro h42
    simp only [readValue]
    rw [if_neg h42]
    simp
  · intro h42 h45 h43 h58 h36
    simp only [readValue]
    rw [if_neg h42]
    simp [h45, h43, h58, h36]
  · intro h42 h45 h43 h58 h36
    constructor
    · simp only [readValue]
      rw [if_neg h42]
      simp [h45, h43, h58, h36]
    · simp only [readValue]
      rw [if_neg h42]
      simp [h45, h43, h58, h36]

/-- Witness for **C4 (amended)** at concrete bytes. -/
theorem c4_telnet_fallback_witness :
    (readValue 1 true false (43 :: strBytes "OK\r\n") =
      finishRV (readTelnetMultiBulk (43 :: strBytes "OK\r\n")).out true
        ((readTelnetMultiBulk (43 :: strBytes "OK\r\n")).n + 1)
        (readTelnetMultiBulk (43 :: strBytes "OK\r\n")).rest
        (readTelnetMultiBulk (43 :: strBytes "OK\r\n")).err) ∧
    (readValue 1 true true (80 :: strBytes "ING\r\n")).err =
      some (.protocol (expectedMsg 80)) :=
  ⟨(c4_telnet_fallback 0 43 (strBytes "OK\r\n")).1 (by decide),
    ((c4_telnet_fallback 0 80 (strBytes "ING\r\n")).2.2 (by decide) (by decide) (by decide)
      (by decide) (by decide)).1⟩

/-- **C5 counterexample** — in multibulk mode a `*`-framed input with an
Integer child parses without error: `ReadMultiBulk "*1\r\n:5\r\n"` returns
the array `[Integer 5]` with a `nil` error, contradicting "any child whose
leading byte is not `$` causes the protocol error". -/
theorem c5_counterexample :
    (readValue 2 true false (strBytes "*1\r\n:5\r\n")).err = none ∧
    (readValue 2 true false (strBytes "*1\r\n:5\r\n")).val =
      Value.mk 42 0 none (.cons (Value.mk 58 5 none .nil true false) .nil) false false ∧
    (readValue 2 true false (strBytes "*1\r\n:5\r\n")).telnet = false ∧
    (readValue 2 true false (strBytes "*1\r\n:5\r\n")).n = 8 :=
  ⟨rfl, rfl, rfl, rfl⟩

/-- **C5 (amended)** — in multibulk mode, a child beginning with any of the
four recognised non-array type bytes parses exactly as in plain mode; only
a child whose leading byte is outside the five type bytes draws the
`"expected '$', got …"` protocol error naming that byte. -/
theorem c5_multibulk_children (fuel : Nat) (c : Nat) (rest : List Nat) :
    (c = 45 ∨ c = 43 ∨ c = 58 ∨ c = 36 →
      readValue (fuel + 1) true true (c :: rest) = readValue (fuel + 1) false true (c :: rest)) ∧
    (c ≠ 42 → c ≠ 45 → c ≠ 43 → c ≠ 58 → c ≠ 36 →
      readValue (fuel + 1) true true (c :: rest) =
        ⟨nullValue, false, 1, rest, some (.protocol (expectedMsg c))⟩) := by
  constructor
  · intro hc
    rw [readValue_step fuel true true c rest (by rcases hc with h | h | h | h <;> omega)
        (fun _ => rfl),
      readValue_step fuel false true c rest (by rcases hc with h | h | h | h <;> omega)
        (fun h => absurd h (by simp))]
    rcases hc with h | h | h | h <;> simp [h]
  · intro h42 h45 h43 h58 h36
    rw [readValue_step fuel true true c rest h42 (fun _ => rfl)]
    rw [if_neg (by simp [h45, h43] : ¬(c = 45 ∨ c = 43)), if_neg h58, if_neg h36,
      if_pos (by simp : (true : Bool) = true ∧ (true : Bool) = true)]

/-- Witness for **C5 (amended)** at concrete bytes. -/
theorem c5_multibulk_children_witness :
    (readValue 1 true true (58 :: strBytes "5\r\n") =
      readValue 1 false true (58 :: strBytes "5\r\n")) ∧
    readValue 1 true true (80 :: strBytes "ING\r\n") =
      ⟨nullValue, false, 1, strBytes "ING\r\n", some (.protocol (expectedMsg 80))⟩ :=
  ⟨(c5_multibulk_children 0 58 (strBytes "5\r\n")).1 (by decide),
    (c5_multibulk_children 0 80 (strBytes "ING\r\n")).2 (by decide) (by decide) (by decide)
      (by decide) (by decide)⟩

/-- **C6 counterexample** — `Integer()` on a non-Integer value holding
`"3.7"` returns `0`, not the `3` the claimed float-parse-and-truncate
fallback would produce: there is no floating-point fallback. -/
theorem c6_counterexample :
    IntegerGo (Value.mk 36 0 (some [51, 46, 55]) .nil true false) = 0 ∧ (0 : Int) ≠ 3 :=
  ⟨rfl, by decide⟩

/-- **C6 (amended)** — `Integer()` on a non-Integer value parses the string
form with `strconv.ParseInt` and discards the error: any `int64`-range
integer in canonical decimal form is recovered exactly (and, per the
counterexample, a failed parse yields `0` with no floating-point
fallback). -/
theorem c6_integer_parse (i : Int) (h1 : -(2 ^ 63) ≤ i) (h2 : i < 2 ^ 63) :
    IntegerGo (StringValue (intRepr i)) = i := by
  have hgo : IntegerGo (StringValue (intRepr i)) = goParseInt64 (intRepr i) := rfl
  rw [hgo]
  rcases lt_or_le i 0 with hneg | hpos
  · rw [show intRepr i = 45 :: natRepr (-i).toNat from by simp [intRepr, hneg]]
    have hm : ((-i).toNat : Int) = -i := by omega
    have hmle : (-i).toNat ≤ 2 ^ 63 := by omega
    cases hrep : natRepr (-i).toNat with
    | nil => exact absurd hrep (natRepr_ne_nil _)
    | cons c rest =>
      have hok := natRepr_ok (-i).toNat
      rw [hrep] at hok
      have hval := digitsToNat_natRepr (-i).toNat
      rw [hrep] at hval
      rw [goParseInt64_neg c rest hok (by rw [hval]; exact hmle), hval]
      omega
  · rw [show i = ((i.toNat : Nat) : Int) from by omega, intRepr_natCast]
    have hnle : i.toNat < 2 ^ 63 := by omega
    cases hrep : natRepr i.toNat with
    | nil => exact absurd hrep (natRepr_ne_nil _)
    | cons c rest =>
      have hok := natRepr_ok i.toNat
      rw [hrep] at hok
      have hval := digitsToNat_natRepr i.toNat
      rw [hrep] at hval
      rw [goParseInt64_unsigned c rest hok (by rw [hval]; omega), hval,
        if_neg (by omega : ¬2 ^ 63 ≤ i.toNat)]

/-- Witness for **C6 (amended)** at `i = -42`. -/
theorem c6_integer_parse_witness :
    -(2 ^ 63) ≤ (-42 : Int) ∧ (-42 : Int) < 2 ^ 63 ∧
    IntegerGo (StringValue (intRepr (-42))) = -42 :=
  ⟨by decide, by decide, c6_integer_parse (-42) (by decide) (by decide)⟩

set_option maxRecDepth 100000 in
/-- **C7** — End-of-input semantics: on an exhausted source before any
byte of a value, `ReadValue` and `ReadMultiBulk` report `io.EOF`; on a
source exhausted after a proper nonempty prefix of a valid message — or,
for `ReadMultiBulk`, mid-way through a telnet line — they report
`io.ErrUnexpectedEOF`, which is distinct from `io.EOF`. -/
theorem c7_eof_semantics (m : Msg) (fuel : Nat) (p t : List Nat)
    (hv : validB m = true) (hf : req m ≤ fuel)
    (hp : p <+: encode m) (hne : p ≠ encode m) :
    (ReadValue fuel []).err = some RErr.eof ∧
    (ReadMultiBulk fuel []).err = some RErr.eof ∧
    (p ≠ [] → (ReadValue fuel p).err = some RErr.unexpectedEOF) ∧
    (p ≠ [] → isStar m = true → (ReadMultiBulk fuel p).err = some RErr.unexpectedEOF) ∧
    (telnetSafe t = true → t ≠ [] → t.headD 0 ≠ 42 →
      (ReadMultiBulk fuel t).err = some RErr.unexpectedEOF) ∧
    RErr.unexpectedEOF ≠ RErr.eof := by
  obtain ⟨f, rfl⟩ : ∃ f, fuel = f + 1 := ⟨fuel - 1, by have := req_pos m; omega⟩
  refine ⟨rfl, rfl, ?_, ?_, ?_, by decide⟩
  · intro hp0
    exact readValue_prefixEof m (f + 1) false false p hv hf
      (fun h => absurd h (by simp)) hp hne hp0
  · intro hp0 hstar
    exact readValue_prefixEof m (f + 1) true false p hv hf (fun _ => Or.inr hstar) hp hne hp0
  · intro hsafe ht0 h42
    obtain ⟨c, t2, rfl⟩ : ∃ c t2, t = c :: t2 := by
      cases t with
      | nil => exact absurd rfl ht0
      | cons c t2 => exact ⟨c, t2, rfl⟩
    have hc42 : ¬c = 42 := by
      simpa using h42
    show (readValue (f + 1) true false (c :: t2)).err = some RErr.unexpectedEOF
    simp only [readValue]
    rw [if_neg hc42]
    simp only [Bool.false_eq_true, and_true, and_false, if_true, if_false, true_and,
      eq_self_iff_true]
    have he : (readTelnetMultiBulk (c :: t2)).err = some RErr.eof :=
      readTelnetLoop_safe (c :: t2) [] none 0 hsafe
    exact finishRV_errOf _ _ _ _ _ (Or.inl he)

/-- Witness for **C7** at a concrete message, prefix and telnet line. -/
theorem c7_eof_semantics_witness :
    (ReadValue 1 []).err = some RErr.eof ∧
    (ReadValue 1 [43, 79]).err = some RErr.unexpectedEOF ∧
    (ReadMultiBulk 1 [80, 73]).err = some RErr.unexpectedEOF :=
  ⟨(c7_eof_semantics (Msg.simple [79, 75]) 1 [43, 79] [80, 73] (by decide) (by decide)
      (by decide) (by decide)).1,
    (c7_eof_semantics (Msg.simple [79, 75]) 1 [43, 79] [80, 73] (by decide) (by decide)
      (by decide) (by decide)).2.2.1 (by decide),
    (c7_eof_semantics (Msg.simple [79, 75]) 1 [43, 79] [80, 73] (by decide) (by decide)
      (by decide) (by decide)).2.2.2.2.1 (by decide) (by decide) (by decide)⟩

/-- **C8** — Fragmentation is NOT invariant: `"$6\r\nfoobar\r\n"` delivered
in one read decodes to the bulk string `"foobar"` with 12 bytes consumed,
but split as `"$6\r\nfo" / "obar\r\n"` the same bytes draw the
`"invalid bulk line ending"` protocol error, and delivered one byte per
read the valid `"*2\r\n:1\r\n+a\r\n"` draws an unexpected-EOF error:
`fillBuffer` appends refills at the 4096-byte buffer length rather than at
the filled length, misaligning every subsequent read. -/
theorem c8_fragmentation_broken :
    (ReadValueB 50 [strBytes "$6\r\nfoobar\r\n"]).err = none ∧
    (ReadValueB 50 [strBytes "$6\r\nfoobar\r\n"]).val =
      Value.mk 36 0 (some (strBytes "foobar")) .nil true false ∧
    (ReadValueB 50 [strBytes "$6\r\nfoobar\r\n"]).n = 12 ∧
    (ReadValueB 50 [strBytes "$6\r\nfo", strBytes "obar\r\n"]).err =
      some (.protocol "invalid bulk line ending") ∧
    (ReadValueB 50 ((strBytes "*2\r\n:1\r\n+a\r\n").map (fun c => [c]))).err =
      some .unexpectedEOF :=
  ⟨rfl, rfl, rfl, rfl, rfl⟩

set_option maxRecDepth 100000 in
/-- **C9** — Null distinction at the accessors: decoding `"$-1\r\n"` then
`Bytes()` gives `none` while `"$0\r\n\r\n"` gives `some []`, and decoding
`"*-1\r\n"` then `Array()` gives `none` while `"*0\r\n"` gives
`some .nil`; the absent and present-empty results are distinct. -/
theorem c9_null_distinction :
    (ReadValue 2 (strBytes "$-1\r\n")).err = none ∧
    BytesGo (ReadValue 2 (strBytes "$-1\r\n")).val = none ∧
    (ReadValue 2 (strBytes "$0\r\n\r\n")).err = none ∧
    BytesGo (ReadValue 2 (strBytes "$0\r\n\r\n")).val = some [] ∧
    (ReadValue 2 (strBytes "*-1\r\n")).err = none ∧
    ArrayGo (ReadValue 2 (strBytes "*-1\r\n")).val = none ∧
    (ReadValue 2 (strBytes "*0\r\n")).err = none ∧
    ArrayGo (ReadValue 2 (strBytes "*0\r\n")).val = some .nil ∧
    BytesGo (ReadValue 2 (strBytes "$-1\r\n")).val ≠
      BytesGo (ReadValue 2 (strBytes "$0\r\n\r\n")).val ∧
    ArrayGo (ReadValue 2 (strBytes "*-1\r\n")).val ≠
      ArrayGo (ReadValue 2 (strBytes "*0\r\n")).val :=
  ⟨rfl, rfl, rfl, rfl, rfl, rfl, rfl, rfl,
    fun h => Option.noConfusion h, fun h => Option.noConfusion h⟩

set_option maxRecDepth 100000 in
/-- **C10** — Header-integer overflow: the length parser accumulates with
wrapping 64-bit arithmetic, so `"9223372036854775808"` parses to
`-(2 ^ 63)` with no error, and `"$9223372036854775808\r\n"` decodes to the
null bulk `Value` with a `nil` error and all 22 bytes consumed. -/
theorem c10_int_wrap :
    (readInt (strBytes "9223372036854775808\r\n")).out = -(2 ^ 63) ∧
    (readInt (strBytes "9223372036854775808\r\n")).err = none ∧
    (readValue 1 false false (strBytes "$9223372036854775808\r\n")).err = none ∧
    (readValue 1 false false (strBytes "$9223372036854775808\r\n")).val =
      Value.mk 36 0 none .nil true true ∧
    (readValue 1 false false (strBytes "$9223372036854775808\r\n")).n = 22 ∧
    (readValue 1 false false (strBytes "$9223372036854775808\r\n")).rest = [] :=
  ⟨rfl, rfl, rfl, rfl, rfl, rfl⟩

end Resp
